import Mathlib

/-!
Verification of the DNS resolution pipeline of `shuttle` (`src/dns/dns.go`)
against its natural-language specification.

The Go code is shallowly embedded: Go strings are modelled as `List Char`
(the relevant code is ASCII-only, where Go's byte indexing and Lean's
character lists agree), `net.IP` values as byte lists (`List Nat`, each
entry `< 256`; a parsed IP is always the 16-byte form, as in Go's
`net.ParseIP`), fallible functions return `Option`/`Except`, and the
handler chain built by `ApplyConfig` is a first-order data type together
with an evaluator.  Standard-library collaborators (`net.ParseIP`,
`net/url.Parse`, `strconv.Atoi`, `net.IP.String`, `net.JoinHostPort`) are
modelled after the Go standard library on the character set these claims
exercise; the models do not implement `%`-escape decoding or IPv6 zone
suffixes, which none of the configuration grammar of this repository
produces.
-/

namespace ShuttleDNS

/-- ASCII decimal digit test, `'0'..'9'`. -/
def isDigit (c : Char) : Bool := '0' ≤ c && c ≤ '9'

/-- Value of an ASCII decimal digit. -/
def digitVal (c : Char) : Nat := c.toNat - 48

/-- ASCII hexadecimal digit test (both cases), as accepted by Go's `xtoi`. -/
def isHexDigit (c : Char) : Bool :=
  isDigit c || ('a' ≤ c && c ≤ 'f') || ('A' ≤ c && c ≤ 'F')

/-- Value of an ASCII hexadecimal digit. -/
def hexVal (c : Char) : Nat :=
  if isDigit c then c.toNat - 48
  else if 'a' ≤ c && c ≤ 'f' then c.toNat - 87
  else c.toNat - 55

/-- The ASCII character of a decimal digit. -/
def digitChar (d : Nat) : Char := Char.ofNat (48 + d)

/-- The ASCII character of a hexadecimal digit, lowercase as Go prints it. -/
def hexDigitChar (d : Nat) : Char :=
  if d < 10 then Char.ofNat (48 + d) else Char.ofNat (87 + d)

/-- Little-endian decimal digits by repeated division, fuel-based so that
it evaluates by kernel reduction. -/
def decCharsAux : Nat → Nat → List Char
  | 0, _ => []
  | fuel + 1, n => if n = 0 then [] else digitChar (n % 10) :: decCharsAux fuel (n / 10)

/-- Decimal rendering of a natural number, most significant digit first,
no leading zeros; `0` renders as `"0"` (Go `strconv.Itoa` on the values
that occur here). -/
def decChars (n : Nat) : List Char :=
  if n = 0 then ['0'] else (decCharsAux n n).reverse

/-- Left-to-right accumulation of a decimal digit string, as Go's
`strconv.Atoi` and the IPv4 field parser accumulate. -/
def decValue (l : List Char) : Nat :=
  l.foldl (fun a c => a * 10 + digitVal c) 0

/-- Little-endian hexadecimal digits by repeated division, fuel-based so
that it evaluates by kernel reduction. -/
def hexCharsAux : Nat → Nat → List Char
  | 0, _ => []
  | fuel + 1, n => if n = 0 then [] else hexDigitChar (n % 16) :: hexCharsAux fuel (n / 16)

/-- Hexadecimal rendering of a natural number, lowercase, no leading
zeros; `0` renders as `"0"` (Go `net.IP.String`'s group printing). -/
def hexChars (n : Nat) : List Char :=
  if n = 0 then ['0'] else (hexCharsAux n n).reverse

/-- Left-to-right accumulation of a hexadecimal digit string (Go `xtoi`). -/
def hexValue (l : List Char) : Nat :=
  l.foldl (fun a c => a * 16 + hexVal c) 0

theorem decCharsAux_eq : ∀ (fuel n : Nat), n ≤ fuel →
    decCharsAux fuel n = (Nat.digits 10 n).map digitChar := by
  intro fuel
  induction fuel with
  | zero =>
    intro n hn
    interval_cases n
    simp [decCharsAux]
  | succ f ih =>
    intro n hn
    by_cases h0 : n = 0
    · subst h0; simp [decCharsAux]
    · have hdiv : n / 10 ≤ f := by
        have : n / 10 < n := Nat.div_lt_self (Nat.pos_of_ne_zero h0) (by norm_num)
        omega
      rw [decCharsAux, if_neg h0, ih _ hdiv,
        Nat.digits_def' (by norm_num : 1 < 10) (Nat.pos_of_ne_zero h0)]
      rfl

theorem hexCharsAux_eq : ∀ (fuel n : Nat), n ≤ fuel →
    hexCharsAux fuel n = (Nat.digits 16 n).map hexDigitChar := by
  intro fuel
  induction fuel with
  | zero =>
    intro n hn
    interval_cases n
    simp [hexCharsAux]
  | succ f ih =>
    intro n hn
    by_cases h0 : n = 0
    · subst h0; simp [hexCharsAux]
    · have hdiv : n / 16 ≤ f := by
        have : n / 16 < n := Nat.div_lt_self (Nat.pos_of_ne_zero h0) (by norm_num)
        omega
      rw [hexCharsAux, if_neg h0, ih _ hdiv,
        Nat.digits_def' (by norm_num : 1 < 16) (Nat.pos_of_ne_zero h0)]
      rfl

theorem decChars_eq (n : Nat) :
    decChars n = if n = 0 then ['0'] else ((Nat.digits 10 n).map digitChar).reverse := by
  by_cases h : n = 0
  · subst h; rfl
  · simp only [decChars, h, if_false, decCharsAux_eq n n (le_refl n)]

theorem hexChars_eq (n : Nat) :
    hexChars n = if n = 0 then ['0'] else ((Nat.digits 16 n).map hexDigitChar).reverse := by
  by_cases h : n = 0
  · subst h; rfl
  · simp only [hexChars, h, if_false, hexCharsAux_eq n n (le_refl n)]

theorem digitVal_digitChar {d : Nat} (hd : d < 10) : digitVal (digitChar d) = d := by
  interval_cases d <;> rfl

theorem isDigit_digitChar {d : Nat} (hd : d < 10) : isDigit (digitChar d) = true := by
  interval_cases d <;> rfl

theorem digitChar_ne_zero_char {d : Nat} (hd : d < 10) (h0 : d ≠ 0) :
    digitChar d ≠ '0' := by
  interval_cases d <;> simp_all <;> decide

theorem hexVal_hexDigitChar {d : Nat} (hd : d < 16) : hexVal (hexDigitChar d) = d := by
  interval_cases d <;> rfl

theorem isHexDigit_hexDigitChar {d : Nat} (hd : d < 16) :
    isHexDigit (hexDigitChar d) = true := by
  interval_cases d <;> rfl

theorem isHexDigit_not_special {c : Char} (h : isHexDigit c = true) :
    c ≠ ':' ∧ c ≠ '.' := by
  simp only [isHexDigit, isDigit, Bool.or_eq_true, Bool.and_eq_true, decide_eq_true_eq] at h
  constructor <;> rintro rfl <;> revert h <;> decide

theorem isDigit_not_special {c : Char} (h : isDigit c = true) :
    c ≠ ':' ∧ c ≠ '.' ∧ c ≠ '/' := by
  simp only [isDigit, Bool.and_eq_true, decide_eq_true_eq] at h
  refine ⟨?_, ?_, ?_⟩ <;> rintro rfl <;> revert h <;> decide

/-- Folding decimal digits left-to-right recovers `Nat.ofDigits` of the
little-endian digit list. -/
theorem foldr_digits_dec {L : List Nat} (hL : ∀ d ∈ L, d < 10) :
    (L.map digitChar).foldr (fun c a => a * 10 + digitVal c) 0 = Nat.ofDigits 10 L := by
  induction L with
  | nil => rfl
  | cons d t ih =>
    have hd : d < 10 := hL d (by simp)
    have ht : ∀ x ∈ t, x < 10 := fun x hx => hL x (by simp [hx])
    simp only [List.map_cons, List.foldr_cons, ih ht, Nat.ofDigits_cons,
      digitVal_digitChar hd]
    ring

theorem foldr_digits_hex {L : List Nat} (hL : ∀ d ∈ L, d < 16) :
    (L.map hexDigitChar).foldr (fun c a => a * 16 + hexVal c) 0 = Nat.ofDigits 16 L := by
  induction L with
  | nil => rfl
  | cons d t ih =>
    have hd : d < 16 := hL d (by simp)
    have ht : ∀ x ∈ t, x < 16 := fun x hx => hL x (by simp [hx])
    simp only [List.map_cons, List.foldr_cons, ih ht, Nat.ofDigits_cons,
      hexVal_hexDigitChar hd]
    ring

/-- Decimal print/parse round trip. -/
theorem decValue_decChars (n : Nat) : decValue (decChars n) = n := by
  by_cases h : n = 0
  · subst h; rfl
  · have hd : ∀ d ∈ Nat.digits 10 n, d < 10 :=
      fun d hdm => Nat.digits_lt_base (by norm_num) hdm
    simp only [decChars_eq, h, if_false, decValue, List.foldl_reverse]
    have := foldr_digits_dec hd
    simpa [this] using (Nat.ofDigits_digits 10 n)

/-- Hexadecimal print/parse round trip. -/
theorem hexValue_hexChars (n : Nat) : hexValue (hexChars n) = n := by
  by_cases h : n = 0
  · subst h; rfl
  · have hd : ∀ d ∈ Nat.digits 16 n, d < 16 :=
      fun d hdm => Nat.digits_lt_base (by norm_num) hdm
    simp only [hexChars_eq, h, if_false, hexValue, List.foldl_reverse]
    have := foldr_digits_hex hd
    simpa [this] using (Nat.ofDigits_digits 16 n)

theorem decChars_ne_nil (n : Nat) : decChars n ≠ [] := by
  by_cases h : n = 0
  · subst h; simp [decChars]
  · simp only [decChars_eq, h, if_false, ne_eq, List.reverse_eq_nil_iff, List.map_eq_nil_iff]
    exact Nat.digits_ne_nil_iff_ne_zero.mpr h

theorem hexChars_ne_nil (n : Nat) : hexChars n ≠ [] := by
  by_cases h : n = 0
  · subst h; simp [hexChars]
  · simp only [hexChars_eq, h, if_false, ne_eq, List.reverse_eq_nil_iff, List.map_eq_nil_iff]
    exact Nat.digits_ne_nil_iff_ne_zero.mpr h

theorem decChars_all_digit (n : Nat) : ∀ c ∈ decChars n, isDigit c = true := by
  by_cases h : n = 0
  · subst h; intro c hc; simp [decChars] at hc; subst hc; rfl
  · intro c hc
    simp only [decChars_eq, h, if_false, List.mem_reverse, List.mem_map] at hc
    obtain ⟨d, hdm, rfl⟩ := hc
    exact isDigit_digitChar (Nat.digits_lt_base (by norm_num) hdm)

theorem hexChars_all_hex (n : Nat) : ∀ c ∈ hexChars n, isHexDigit c = true := by
  by_cases h : n = 0
  · subst h; intro c hc; simp [hexChars] at hc; subst hc; rfl
  · intro c hc
    simp only [hexChars_eq, h, if_false, List.mem_reverse, List.mem_map] at hc
    obtain ⟨d, hdm, rfl⟩ := hc
    exact isHexDigit_hexDigitChar (Nat.digits_lt_base (by norm_num) hdm)

/-- A printed decimal has no leading zero unless it is exactly `"0"`. -/
theorem decChars_head_ne_zero {n : Nat} (hn : n ≠ 0) {c : Char} {rest : List Char}
    (h : decChars n = c :: rest) : c ≠ '0' := by
  have hnil : Nat.digits 10 n ≠ [] := Nat.digits_ne_nil_iff_ne_zero.mpr hn
  have hlast : (Nat.digits 10 n).getLast hnil ≠ 0 := Nat.getLast_digit_ne_zero 10 hn
  have hlt : (Nat.digits 10 n).getLast hnil < 10 :=
    Nat.digits_lt_base (by norm_num) (List.getLast_mem hnil)
  simp only [decChars_eq, hn, if_false] at h
  have hrev : ((Nat.digits 10 n).map digitChar).reverse =
      (Nat.digits 10 n).reverse.map digitChar := by
    rw [List.map_reverse]
  rw [hrev] at h
  have hhead : ((Nat.digits 10 n).reverse.map digitChar).head? = some c := by
    rw [h]; rfl
  rw [List.head?_map, List.head?_reverse] at hhead
  have : (Nat.digits 10 n).getLast? = some ((Nat.digits 10 n).getLast hnil) :=
    List.getLast?_eq_getLast _ hnil
  rw [this] at hhead
  simp only [Option.map_some', Option.some.injEq] at hhead
  rw [← hhead]
  exact digitChar_ne_zero_char hlt hlast

/-- A hex group below `2 ^ 16` prints in at most four digits. -/
theorem hexChars_length_le {n : Nat} (hn : n < 65536) : (hexChars n).length ≤ 4 := by
  by_cases h : n = 0
  · subst h; simp [hexChars]
  · simp only [hexChars_eq, h, if_false, List.length_reverse, List.length_map]
    rw [Nat.digits_len 16 n (by norm_num) h]
    have : Nat.log 16 n < 4 := by
      rw [← Nat.lt_pow_iff_log_lt (by norm_num) h]
      exact lt_of_lt_of_le hn (by norm_num)
    omega

/-! ## Splitting and joining on a separator character -/

/-- Splits a character list at every occurrence of `sep`; always returns at
least one (possibly empty) field, like Go's `strings.Split`. -/
def splitOnChar (sep : Char) : List Char → List (List Char)
  | [] => [[]]
  | c :: t =>
    let r := splitOnChar sep t
    if c = sep then [] :: r else (c :: r.headD []) :: r.tail

/-- Joins fields with a single separator between consecutive fields. -/
def joinSep (sep : Char) : List (List Char) → List Char
  | [] => []
  | [f] => f
  | f :: rest => f ++ sep :: joinSep sep rest

theorem splitOnChar_ne_nil (sep : Char) (l : List Char) : splitOnChar sep l ≠ [] := by
  cases l with
  | nil => simp [splitOnChar]
  | cons c t =>
    simp only [splitOnChar]
    by_cases h : c = sep <;> simp [h]

theorem splitOnChar_no_sep {sep : Char} {l : List Char} (h : sep ∉ l) :
    splitOnChar sep l = [l] := by
  induction l with
  | nil => rfl
  | cons c t ih =>
    have hc : c ≠ sep := fun hc => h (by simp [hc])
    have ht : sep ∉ t := fun hm => h (by simp [hm])
    simp [splitOnChar, hc, ih ht]

theorem splitOnChar_append_sep {sep : Char} {f : List Char} (hf : sep ∉ f)
    (t : List Char) : splitOnChar sep (f ++ sep :: t) = f :: splitOnChar sep t := by
  induction f with
  | nil => simp [splitOnChar]
  | cons c g ih =>
    have hc : c ≠ sep := fun hc => hf (by simp [hc])
    have hg : sep ∉ g := fun hm => hf (by simp [hm])
    simp only [List.cons_append, splitOnChar, List.append_eq]
    rw [ih hg]
    simp [hc]

/-- Splitting the joined fields recovers them, provided every field is
separator-free. -/
theorem splitOnChar_joinSep {sep : Char} {fs : List (List Char)} (hne : fs ≠ [])
    (hf : ∀ f ∈ fs, sep ∉ f) : splitOnChar sep (joinSep sep fs) = fs := by
  induction fs with
  | nil => exact absurd rfl hne
  | cons f rest ih =>
    cases rest with
    | nil => exact splitOnChar_no_sep (hf f (by simp))
    | cons g rest2 =>
      have hfree : sep ∉ f := hf f (by simp)
      have hrest : ∀ x ∈ g :: rest2, sep ∉ x := fun x hx => hf x (by simp [hx])
      simp only [joinSep]
      rw [splitOnChar_append_sep hfree, ih (by simp) hrest]

/-- Joining with an extra separator and tail: split recovers the front
fields and continues in the tail. -/
theorem splitOnChar_joinSep_append {sep : Char} {fs : List (List Char)} (hne : fs ≠ [])
    (hf : ∀ f ∈ fs, sep ∉ f) (t : List Char) :
    splitOnChar sep (joinSep sep fs ++ sep :: t) = fs ++ splitOnChar sep t := by
  induction fs with
  | nil => exact absurd rfl hne
  | cons f rest ih =>
    cases rest with
    | nil => simpa using splitOnChar_append_sep (hf f (by simp)) t
    | cons g rest2 =>
      have hfree : sep ∉ f := hf f (by simp)
      have hrest : ∀ x ∈ g :: rest2, sep ∉ x := fun x hx => hf x (by simp [hx])
      simp only [joinSep, List.append_assoc, List.cons_append]
      rw [splitOnChar_append_sep hfree, ih (by simp) hrest]
      simp

/-! ## The IP address model (Go `net.ParseIP` / `net.IP.String`)

An IP is a byte list; as in Go, a successfully parsed address is always
in the 16-byte form, IPv4 addresses being stored with the
`v4InV6` 12-byte prep (ten zeros then two `0xff` bytes). -/

/-- The 12 bytes Go prepends to an IPv4 address stored in 16-byte form. -/
def v4InV6 : List Nat := [0, 0, 0, 0, 0, 0, 0, 0, 0, 0, 255, 255]

/-- One field of a dotted IPv4 literal: decimal, value at most 255, no
leading zero (Go rejects leading zeros since 1.17). -/
def parseV4Field (f : List Char) : Option Nat :=
  match f with
  | [] => none
  | c :: rest =>
    if ¬ (c :: rest).all isDigit then none
    else if c = '0' ∧ rest ≠ [] then none
    else
      let n := decValue (c :: rest)
      if n ≤ 255 then some n else none

/-- Parses a list of dotted-quad fields in order, aborting at the first
invalid field, as Go's field loop does. -/
def parseV4Fields : List (List Char) → Option (List Nat)
  | [] => some []
  | f :: rest => do
    let b ← parseV4Field f
    let t ← parseV4Fields rest
    pure (b :: t)

/-- A dotted IPv4 literal as four bytes (Go `parseIPv4`, the field loop). -/
def parseV4Quad (s : List Char) : Option (List Nat) :=
  match parseV4Fields (splitOnChar '.' s) with
  | some [a, b, c, d] => some [a, b, c, d]
  | _ => none

/-- Go `parseIPv4`: a dotted quad, stored in the 16-byte `v4InV6` form. -/
def parseIPv4Chars (s : List Char) : Option (List Nat) :=
  (parseV4Quad s).map (fun q => v4InV6 ++ q)

/-- One hex group of an IPv6 literal: one to four hex digits (Go `xtoi`
with the `> 0xFFFF` guard). -/
def parseHexField (f : List Char) : Option Nat :=
  if f = [] ∨ 4 < f.length ∨ ¬ f.all isHexDigit then none else some (hexValue f)

/-- A run of `:`-separated IPv6 fields rendered as bytes.  A dotted IPv4
part is accepted only as the final field and only when `allowV4` (Go
allows the embedded IPv4 form only at the very end of the address). -/
def parseFieldSeq (allowV4 : Bool) : List (List Char) → Option (List Nat)
  | [] => some []
  | [f] =>
    if f.contains '.' then
      if allowV4 then parseV4Quad f else none
    else (parseHexField f).map (fun g => [g / 256, g % 256])
  | f :: g :: rest => do
    let n ← parseHexField f
    let b ← parseFieldSeq allowV4 (g :: rest)
    pure (n / 256 :: n % 256 :: b)

/-- Fields before the first empty field and the fields after it. -/
def splitAtFirstEmpty : List (List Char) → Option (List (List Char) × List (List Char))
  | [] => none
  | f :: rest =>
    if f.isEmpty then some ([], rest)
    else (splitAtFirstEmpty rest).map (fun p => (f :: p.1, p.2))

/-- True when every field is a non-empty character list. -/
def allNonempty (fs : List (List Char)) : Bool := fs.all (fun g => !g.isEmpty)

/-- Go `parseIPv6` on the fields of the literal: at most one `::`, which
must expand to at least one zero group; a single leading or trailing `:`
is rejected; the result is exactly 16 bytes. -/
def parseIPv6Chars (s : List Char) : Option (List Nat) :=
  let fs := splitOnChar ':' s
  match splitAtFirstEmpty fs with
  | none =>
    match parseFieldSeq true fs with
    | some bs => if bs.length = 16 then some bs else none
    | none => none
  | some (before, aft) =>
    if before.isEmpty then
      -- the literal starts with ':': it must start with '::'
      match aft with
      | [] => none
      | f :: rest =>
        if f.isEmpty then
          if rest = [[]] then some (List.replicate 16 0)  -- the literal is exactly "::"
          else if rest.isEmpty || !allNonempty rest then none
          else
            match parseFieldSeq true rest with
            | some bs =>
              if bs.length ≤ 14 then some (List.replicate (16 - bs.length) 0 ++ bs)
              else none
            | none => none
        else none
    else
      if aft.isEmpty then none  -- single trailing ':'
      else if aft = [[]] then
        -- trailing "::"
        match parseFieldSeq false before with
        | some bs =>
          if bs.length ≤ 14 then some (bs ++ List.replicate (16 - bs.length) 0)
          else none
        | none => none
      else
        -- "::" in the middle
        if !allNonempty aft then none
        else
          match parseFieldSeq false before, parseFieldSeq true aft with
          | some b1, some b2 =>
            if b1.length + b2.length ≤ 14 then
              some (b1 ++ List.replicate (16 - b1.length - b2.length) 0 ++ b2)
            else none
          | _, _ => none

/-- Go `net.ParseIP`: the first `.` or `:` decides between the IPv4 and
IPv6 grammars; a string with neither is not an IP literal.  (The Go
function also splits off an IPv6 `%zone`, which this model does not
support; no string this repository's configuration or printer produces
carries a zone.) -/
def parseIPChars (s : List Char) : Option (List Nat) :=
  match s.find? (fun c => c = '.' || c = ':') with
  | some c => if c = '.' then parseIPv4Chars s else parseIPv6Chars s
  | none => none

/-- Go `net.IP.To4` on our byte lists. -/
def to4 (ip : List Nat) : Option (List Nat) :=
  if ip.length = 4 then some ip
  else if ip.length = 16 ∧ ip.take 12 = v4InV6 then some (ip.drop 12)
  else none

/-- 16 bytes as eight 16-bit groups. -/
def bytesToGroups : List Nat → List Nat
  | b0 :: b1 :: rest => (b0 * 256 + b1) :: bytesToGroups rest
  | _ => []

/-- Groups back to bytes. -/
def groupsToBytes (gs : List Nat) : List Nat :=
  gs.flatMap (fun g => [g / 256, g % 256])

/-- The maximal runs of zero groups, as (start index, length), in order
(the scan of Go `net.IP.String` steps over the groups in the same way). -/
def zeroRuns : List Nat → Nat → List (Nat × Nat)
  | [], _ => []
  | g :: t, i =>
    if g = 0 then
      (i, 1 + (t.takeWhile (· = 0)).length) ::
        zeroRuns (t.dropWhile (· = 0)) (i + (1 + (t.takeWhile (· = 0)).length))
    else zeroRuns t (i + 1)
termination_by l => l.length
decreasing_by
  · simpa using Nat.lt_succ_of_le ((List.dropWhile_suffix (· = 0)).sublist.length_le)
  · simp

/-- The run Go's RFC 5952 printer elides: the first strictly-longest run
of zero groups, provided it spans at least two groups. -/
def bestRun (runs : List (Nat × Nat)) : Option (Nat × Nat) :=
  let b := runs.foldl (fun (best : Nat × Nat) r => if best.2 < r.2 then r else best) (0, 0)
  if 2 ≤ b.2 then some b else none

/-- RFC 5952 rendering of eight groups (Go `net.IP.String`, 16-byte arm). -/
def v6String (gs : List Nat) : List Char :=
  match bestRun (zeroRuns gs 0) with
  | none => joinSep ':' (gs.map hexChars)
  | some (i, len) =>
    joinSep ':' ((gs.take i).map hexChars) ++ ':' :: ':' ::
      joinSep ':' ((gs.drop (i + len)).map hexChars)

/-- Dotted-quad rendering of four bytes. -/
def v4String (q : List Nat) : List Char := joinSep '.' (q.map decChars)

/-- Go `net.IP.String`. -/
def ipString (ip : List Nat) : List Char :=
  if ip.isEmpty then '<' :: 'n' :: 'i' :: 'l' :: ['>']
  else
    match to4 ip with
    | some q => v4String q
    | none =>
      if ip.length = 16 then v6String (bytesToGroups ip)
      else '?' :: (ip.flatMap hexChars)

/-! ## Print/parse round trips for the IP model -/

theorem parseV4Field_decChars {n : Nat} (hn : n ≤ 255) :
    parseV4Field (decChars n) = some n := by
  rcases hc : decChars n with _ | ⟨c, rest⟩
  · exact absurd hc (decChars_ne_nil n)
  · have hall : (c :: rest).all isDigit = true := by
      rw [← hc]
      exact List.all_eq_true.mpr fun x hx => decChars_all_digit n x hx
    have hlead : ¬ (c = '0' ∧ rest ≠ []) := by
      rintro ⟨rfl, hrest⟩
      by_cases h0 : n = 0
      · subst h0
        simp [decChars] at hc
        exact hrest hc
      · exact decChars_head_ne_zero h0 hc rfl
    have hval : decValue (c :: rest) = n := by rw [← hc]; exact decValue_decChars n
    simp [parseV4Field, hall, hlead, hval, hn]

theorem decChars_no_dot (n : Nat) : '.' ∉ decChars n := by
  intro hm
  exact (isDigit_not_special (decChars_all_digit n _ hm)).2.1 rfl

theorem hexChars_no_dot (n : Nat) : '.' ∉ hexChars n := by
  intro hm
  exact (isHexDigit_not_special (hexChars_all_hex n _ hm)).2 rfl

theorem hexChars_no_colon (n : Nat) : ':' ∉ hexChars n := by
  intro hm
  exact (isHexDigit_not_special (hexChars_all_hex n _ hm)).1 rfl

theorem parseV4Fields_decChars {q : List Nat} (hq : ∀ b ∈ q, b < 256) :
    parseV4Fields (q.map decChars) = some q := by
  induction q with
  | nil => rfl
  | cons b t ih =>
    have hb : b ≤ 255 := Nat.lt_succ_iff.mp (hq b (by simp))
    have ht : ∀ x ∈ t, x < 256 := fun x hx => hq x (by simp [hx])
    simp [parseV4Fields, parseV4Field_decChars hb, ih ht]

/-- Dotted-quad print/parse round trip. -/
theorem parseV4Quad_v4String {q : List Nat} (hlen : q.length = 4)
    (hq : ∀ b ∈ q, b < 256) : parseV4Quad (v4String q) = some q := by
  have hfs : splitOnChar '.' (v4String q) = q.map decChars := by
    apply splitOnChar_joinSep
    · simp only [ne_eq, List.map_eq_nil_iff]
      intro h
      rw [h] at hlen
      simp at hlen
    · intro f hf
      obtain ⟨b, _, rfl⟩ := List.mem_map.mp hf
      exact decChars_no_dot b
  have hq4 : ∃ a b c d, q = [a, b, c, d] := by
    rcases q with _ | ⟨a, q⟩; · simp at hlen
    rcases q with _ | ⟨b, q⟩; · simp at hlen
    rcases q with _ | ⟨c, q⟩; · simp at hlen
    rcases q with _ | ⟨d, q⟩; · simp at hlen
    rcases q with _ | ⟨e, q⟩
    · exact ⟨a, b, c, d, rfl⟩
    · simp at hlen
  obtain ⟨a, b, c, d, rfl⟩ := hq4
  have hm := parseV4Fields_decChars hq
  simp only [List.map_cons, List.map_nil] at hm hfs
  simp only [parseV4Quad, hfs, hm]

theorem parseHexField_hexChars {n : Nat} (hn : n < 65536) :
    parseHexField (hexChars n) = some n := by
  have h1 := hexChars_ne_nil n
  have h2 := hexChars_length_le hn
  have h3 : (hexChars n).all isHexDigit = true :=
    List.all_eq_true.mpr fun x hx => hexChars_all_hex n x hx
  simp [parseHexField, h1, h3, Nat.not_lt.mpr h2, hexValue_hexChars]

theorem hexChars_not_contains_dot (n : Nat) : (hexChars n).contains '.' = false := by
  simpa using hexChars_no_dot n

theorem groupsToBytes_nil : groupsToBytes [] = [] := rfl

theorem groupsToBytes_cons (g : Nat) (t : List Nat) :
    groupsToBytes (g :: t) = g / 256 :: g % 256 :: groupsToBytes t := rfl

theorem groupsToBytes_append (a b : List Nat) :
    groupsToBytes (a ++ b) = groupsToBytes a ++ groupsToBytes b := by
  simp [groupsToBytes]

theorem groupsToBytes_replicate (n : Nat) :
    groupsToBytes (List.replicate n 0) = List.replicate (2 * n) 0 := by
  induction n with
  | zero => rfl
  | succ k ih =>
    have h2 : 2 * (k + 1) = 2 * k + 1 + 1 := by ring
    rw [List.replicate_succ, groupsToBytes_cons, ih, h2, List.replicate_succ,
      List.replicate_succ]

theorem groupsToBytes_length (gs : List Nat) :
    (groupsToBytes gs).length = 2 * gs.length := by
  induction gs with
  | nil => rfl
  | cons g t ih =>
    rw [groupsToBytes_cons]
    simp only [List.length_cons, ih]
    ring

/-- A run of hex-printed groups parses back to their bytes. -/
theorem parseFieldSeq_hexChars (allowV4 : Bool) :
    ∀ (gs : List Nat), (∀ g ∈ gs, g < 65536) →
    parseFieldSeq allowV4 (gs.map hexChars) = some (groupsToBytes gs)
  | [], _ => rfl
  | [g], h => by
    have hg : g < 65536 := h g (by simp)
    simp [parseFieldSeq, hexChars_no_dot g, parseHexField_hexChars hg, groupsToBytes]
  | g :: g2 :: t, h => by
    have hg : g < 65536 := h g (by simp)
    have ht : ∀ x ∈ g2 :: t, x < 65536 := fun x hx => h x (by simp [hx])
    have ih := parseFieldSeq_hexChars allowV4 (g2 :: t) ht
    simp only [List.map_cons] at ih ⊢
    simp [parseFieldSeq, parseHexField_hexChars hg, ih, groupsToBytes_cons]

/-- Custom two-step list induction matching the byte-pairing recursion. -/
theorem pairInd (P : List Nat → Prop) (h0 : P []) (h1 : ∀ a, P [a])
    (h2 : ∀ a b t, P t → P (a :: b :: t)) : ∀ l, P l
  | [] => h0
  | [a] => h1 a
  | a :: b :: t => h2 a b t (pairInd P h0 h1 h2 t)

theorem groupsToBytes_bytesToGroups {bs : List Nat} (heven : bs.length % 2 = 0)
    (hb : ∀ b ∈ bs, b < 256) : groupsToBytes (bytesToGroups bs) = bs := by
  induction bs using pairInd with
  | h0 => rfl
  | h1 a => simp at heven
  | h2 a b t ih =>
    have hbt : b < 256 := hb b (by simp)
    have hdiv : (a * 256 + b) / 256 = a := by
      rw [Nat.add_comm, Nat.mul_comm, Nat.add_mul_div_left _ _ (by norm_num : (0:Nat) < 256),
        Nat.div_eq_of_lt hbt]
      omega
    have hmod : (a * 256 + b) % 256 = b := by
      rw [Nat.add_comm, Nat.mul_comm, Nat.add_mul_mod_self_left, Nat.mod_eq_of_lt hbt]
    have ht : ∀ x ∈ t, x < 256 := fun x hx => hb x (by simp [hx])
    have hevent : t.length % 2 = 0 := by simp at heven; omega
    simp only [bytesToGroups, groupsToBytes_cons, hdiv, hmod, ih hevent ht]

theorem bytesToGroups_length {bs : List Nat} :
    (bytesToGroups bs).length = bs.length / 2 := by
  induction bs using pairInd with
  | h0 => rfl
  | h1 a =>
    simp [show bytesToGroups [a] = [] from rfl]
  | h2 a b t ih =>
    simp only [bytesToGroups, List.length_cons, ih]
    omega

theorem bytesToGroups_lt {bs : List Nat} (hb : ∀ b ∈ bs, b < 256) :
    ∀ g ∈ bytesToGroups bs, g < 65536 := by
  induction bs using pairInd with
  | h0 => simp [bytesToGroups]
  | h1 a => simp [show bytesToGroups [a] = [] from rfl]
  | h2 a b t ih =>
    intro g hg
    simp only [bytesToGroups, List.mem_cons] at hg
    rcases hg with rfl | hg
    · have ha : a < 256 := hb a (by simp)
      have hbb : b < 256 := hb b (by simp)
      omega
    · exact ih (fun x hx => hb x (by simp [hx])) g hg

/-! ## The zero-run scan of the RFC 5952 printer -/

theorem zeroRuns_spec : ∀ (gs : List Nat) (i : Nat), ∀ r ∈ zeroRuns gs i,
    i ≤ r.1 ∧ ∃ p q, gs = p ++ List.replicate r.2 0 ++ q ∧ p.length = r.1 - i := by
  intro gs i
  induction gs, i using zeroRuns.induct with
  | case1 i => intro r h; simp [zeroRuns] at h
  | case2 t i ih =>
    intro r h
    rw [zeroRuns] at h
    simp only [reduceIte, List.mem_cons] at h
    have htw : t.takeWhile (· = 0) = List.replicate (t.takeWhile (· = 0)).length 0 := by
      apply List.eq_replicate_of_mem
      intro b hb
      have := List.mem_takeWhile_imp hb
      simpa using this
    have hsplit : (0 : Nat) :: t =
        List.replicate (1 + (t.takeWhile (· = 0)).length) 0 ++ t.dropWhile (· = 0) := by
      conv_lhs => rw [← List.takeWhile_append_dropWhile (p := (· = 0)) (l := t)]
      rw [Nat.add_comm, List.replicate_succ]
      simp only [List.cons_append]
      rw [← htw]
    rcases h with h1 | hmem
    · subst h1
      exact ⟨by simp, [], t.dropWhile (· = 0), by simpa using hsplit, by simp⟩
    · obtain ⟨hle, p, q, hd, hp⟩ := ih r hmem
      refine ⟨by omega, List.replicate (1 + (t.takeWhile (· = 0)).length) 0 ++ p, q, ?_, ?_⟩
      · rw [show ((0:Nat) :: t) =
            List.replicate (1 + (t.takeWhile (· = 0)).length) 0 ++ t.dropWhile (· = 0)
            from hsplit, hd]
        simp [List.append_assoc]
      · simp only [List.length_append, List.length_replicate, hp]
        omega
  | case3 g t i hg ih =>
    intro r h
    rw [zeroRuns] at h
    simp only [if_neg hg] at h
    obtain ⟨hle, p, q, hd, hp⟩ := ih r h
    refine ⟨by omega, g :: p, q, by rw [hd]; simp, ?_⟩
    simp only [List.length_cons, hp]
    omega

theorem foldl_best_choice : ∀ (runs : List (Nat × Nat)) (init : Nat × Nat),
    runs.foldl (fun best r => if best.2 < r.2 then r else best) init = init ∨
    runs.foldl (fun best r => if best.2 < r.2 then r else best) init ∈ runs := by
  intro runs
  induction runs with
  | nil => intro init; left; rfl
  | cons r t ih =>
    intro init
    simp only [List.foldl_cons]
    rcases ih (if init.2 < r.2 then r else init) with h | h
    · rw [h]
      by_cases hc : init.2 < r.2
      · right; simp [hc]
      · left; simp [hc]
    · right; exact List.mem_cons_of_mem r h

theorem bestRun_mem {runs : List (Nat × Nat)} {r : Nat × Nat} (h : bestRun runs = some r) :
    r ∈ runs ∧ 2 ≤ r.2 := by
  simp only [bestRun] at h
  split at h
  case isTrue hb =>
    injection h with h'
    subst h'
    refine ⟨?_, hb⟩
    rcases foldl_best_choice runs (0, 0) with h0 | h0
    · rw [h0] at hb; simp at hb
    · exact h0
  case isFalse => exact absurd h (by simp)

theorem bestRun_zeroRuns_decomp {gs : List Nat} {s l : Nat}
    (h : bestRun (zeroRuns gs 0) = some (s, l)) :
    2 ≤ l ∧ ∃ p q, gs = p ++ List.replicate l 0 ++ q ∧ p.length = s := by
  obtain ⟨hmem, hl⟩ := bestRun_mem h
  obtain ⟨-, p, q, hgs, hp⟩ := zeroRuns_spec gs 0 (s, l) hmem
  exact ⟨hl, p, q, hgs, by simpa using hp⟩

/-! ## Helpers for the field decomposition of a printed IPv6 literal -/

theorem splitOnChar_cons_sep (sep : Char) (t : List Char) :
    splitOnChar sep (sep :: t) = [] :: splitOnChar sep t := by
  simp [splitOnChar]

theorem splitAtFirstEmpty_nil_head (rest : List (List Char)) :
    splitAtFirstEmpty ([] :: rest) = some ([], rest) := by
  simp [splitAtFirstEmpty]

theorem splitAtFirstEmpty_all_ne {fs : List (List Char)} (h : ∀ f ∈ fs, f ≠ []) :
    splitAtFirstEmpty fs = none := by
  induction fs with
  | nil => rfl
  | cons f t ih =>
    have hf : f ≠ [] := h f (by simp)
    have hfe : f.isEmpty = false := by simpa using hf
    simp [splitAtFirstEmpty, hfe, ih (fun x hx => h x (by simp [hx]))]

theorem splitAtFirstEmpty_append {p : List (List Char)} (h : ∀ f ∈ p, f ≠ [])
    (rest : List (List Char)) : splitAtFirstEmpty (p ++ [] :: rest) = some (p, rest) := by
  induction p with
  | nil => simp [splitAtFirstEmpty]
  | cons f t ih =>
    have hf : f ≠ [] := h f (by simp)
    have hfe : f.isEmpty = false := by simpa using hf
    simp [splitAtFirstEmpty, hfe, ih (fun x hx => h x (by simp [hx]))]

theorem mem_map_hexChars_ne_nil {g : List Nat} : ∀ f ∈ g.map hexChars, f ≠ [] := by
  intro f hf
  obtain ⟨x, _, rfl⟩ := List.mem_map.mp hf
  exact hexChars_ne_nil x

theorem mem_map_hexChars_no_colon {g : List Nat} : ∀ f ∈ g.map hexChars, ':' ∉ f := by
  intro f hf
  obtain ⟨x, _, rfl⟩ := List.mem_map.mp hf
  exact hexChars_no_colon x

theorem allNonempty_map_hexChars (gs : List Nat) : allNonempty (gs.map hexChars) = true := by
  simp only [allNonempty, List.all_eq_true]
  intro f hf
  obtain ⟨g, _, rfl⟩ := List.mem_map.mp hf
  simpa using hexChars_ne_nil g

theorem mem_joinSep {sep : Char} {fs : List (List Char)} {c : Char}
    (h : c ∈ joinSep sep fs) : c = sep ∨ ∃ f ∈ fs, c ∈ f := by
  induction fs with
  | nil => simp [joinSep] at h
  | cons f t ih =>
    cases t with
    | nil => right; exact ⟨f, by simp, by simpa [joinSep] using h⟩
    | cons g t2 =>
      simp only [joinSep, List.mem_append, List.mem_cons] at h
      rcases h with h | h | h
      · right; exact ⟨f, by simp, h⟩
      · left; exact h
      · rcases ih h with h' | ⟨f', hf', hc⟩
        · left; exact h'
        · right; exact ⟨f', by simp [hf'], hc⟩

theorem sep_mem_joinSep (sep : Char) (f g : List Char) (t : List (List Char)) :
    sep ∈ joinSep sep (f :: g :: t) := by
  simp [joinSep]

theorem find?_colon {l : List Char} (hall : ∀ c ∈ l, c = ':' ∨ isHexDigit c = true)
    (hc : ':' ∈ l) : l.find? (fun c => c = '.' || c = ':') = some ':' := by
  have hsome : (l.find? (fun c => c = '.' || c = ':')).isSome := by
    rw [List.find?_isSome]
    exact ⟨':', hc, by simp⟩
  obtain ⟨c, hfind⟩ := Option.isSome_iff_exists.mp hsome
  have hp := List.find?_some hfind
  have hm := List.mem_of_find?_eq_some hfind
  rcases hall c hm with rfl | hhex
  · exact hfind
  · obtain ⟨h1, h2⟩ := isHexDigit_not_special hhex
    simp only [Bool.or_eq_true, decide_eq_true_eq] at hp
    rcases hp with hp | hp
    · exact absurd hp h2
    · exact absurd hp h1

theorem find?_dot {l : List Char} (hall : ∀ c ∈ l, c = '.' ∨ isDigit c = true)
    (hc : '.' ∈ l) : l.find? (fun c => c = '.' || c = ':') = some '.' := by
  have hsome : (l.find? (fun c => c = '.' || c = ':')).isSome := by
    rw [List.find?_isSome]
    exact ⟨'.', hc, by simp⟩
  obtain ⟨c, hfind⟩ := Option.isSome_iff_exists.mp hsome
  have hp := List.find?_some hfind
  have hm := List.mem_of_find?_eq_some hfind
  rcases hall c hm with rfl | hdig
  · exact hfind
  · obtain ⟨h1, h2, -⟩ := isDigit_not_special hdig
    simp only [Bool.or_eq_true, decide_eq_true_eq] at hp
    rcases hp with hp | hp
    · exact absurd hp h2
    · exact absurd hp h1

theorem v4String_chars {q : List Nat} : ∀ c ∈ v4String q, c = '.' ∨ isDigit c = true := by
  intro c hc
  rcases mem_joinSep hc with h | ⟨f, hf, hcf⟩
  · left; exact h
  · obtain ⟨b, _, rfl⟩ := List.mem_map.mp hf
    right; exact decChars_all_digit b c hcf

theorem v6String_chars {g : List Nat} : ∀ c ∈ v6String g, c = ':' ∨ isHexDigit c = true := by
  intro c hc
  unfold v6String at hc
  split at hc
  · rcases mem_joinSep hc with h | ⟨f, hf, hcf⟩
    · left; exact h
    · obtain ⟨g, _, rfl⟩ := List.mem_map.mp hf
      right; exact hexChars_all_hex g c hcf
  · simp only [List.mem_append, List.mem_cons] at hc
    rcases hc with hc | hc | hc | hc
    · rcases mem_joinSep hc with h | ⟨f, hf, hcf⟩
      · left; exact h
      · obtain ⟨g, _, rfl⟩ := List.mem_map.mp hf
        right; exact hexChars_all_hex g c hcf
    · left; exact hc
    · left; exact hc
    · rcases mem_joinSep hc with h | ⟨f, hf, hcf⟩
      · left; exact h
      · obtain ⟨g, _, rfl⟩ := List.mem_map.mp hf
        right; exact hexChars_all_hex g c hcf

theorem map_hexChars_ne_single_nil (g : Nat) (t : List Nat) :
    (g :: t).map hexChars ≠ [[]] := by
  intro h
  simp only [List.map_cons] at h
  injection h with h1 h2
  exact hexChars_ne_nil g h1

/-- A compressed RFC 5952 rendering parses back to the groups with the
elided zero run restored. -/
theorem parseIPv6Chars_compressed (p q : List Nat) (l : Nat) (hl : 2 ≤ l)
    (hsum : p.length + l + q.length = 8)
    (hpm : ∀ g ∈ p, g < 65536) (hqm : ∀ g ∈ q, g < 65536) :
    parseIPv6Chars
      (joinSep ':' (p.map hexChars) ++ ':' :: ':' :: joinSep ':' (q.map hexChars)) =
    some (groupsToBytes p ++ List.replicate (2 * l) 0 ++ groupsToBytes q) := by
  rcases p with _ | ⟨p0, pt⟩
  · rcases q with _ | ⟨q0, qt⟩
    · -- the literal is exactly "::"
      have hl8 : l = 8 := by simpa using hsum
      subst hl8
      simp only [List.map_nil, joinSep, List.nil_append, groupsToBytes_nil,
        List.append_nil]
      decide
    · -- leading "::"
      have hqf_ne : (q0 :: qt).map hexChars ≠ [] := by simp
      have hjq := splitOnChar_joinSep hqf_ne (mem_map_hexChars_no_colon (g := q0 :: qt))
      have hfsq := parseFieldSeq_hexChars true (q0 :: qt) hqm
      have hqlen : (groupsToBytes (q0 :: qt)).length = 2 * (q0 :: qt).length :=
        groupsToBytes_length _
      have hrest_ne : (q0 :: qt).map hexChars ≠ [[]] := map_hexChars_ne_single_nil q0 qt
      have hrest_nonempty : allNonempty ((q0 :: qt).map hexChars) = true :=
        allNonempty_map_hexChars _
      have h16 : 16 - (groupsToBytes (q0 :: qt)).length = 2 * l := by
        rw [hqlen]; simp only [List.length_cons, List.length_nil] at hsum ⊢; omega
      have hle14 : (groupsToBytes (q0 :: qt)).length ≤ 14 := by
        rw [hqlen]; simp only [List.length_cons, List.length_nil] at hsum ⊢; omega
      simp only [List.map_nil, joinSep, List.nil_append, groupsToBytes_nil]
      simp only [parseIPv6Chars, splitOnChar_cons_sep, hjq,
        splitAtFirstEmpty_nil_head, List.isEmpty_nil, if_true, if_neg hrest_ne,
        hrest_nonempty, Bool.not_true, Bool.or_false, Bool.false_or, if_false,
        hfsq, hle14, h16]
      simp
  · rcases q with _ | ⟨q0, qt⟩
    · -- trailing "::"
      have hpf_ne : (p0 :: pt).map hexChars ≠ [] := by simp
      have hpf_fields : ∀ f ∈ (p0 :: pt).map hexChars, ':' ∉ f :=
        mem_map_hexChars_no_colon (g := p0 :: pt)
      have hfsp := parseFieldSeq_hexChars false (p0 :: pt) hpm
      have hplen : (groupsToBytes (p0 :: pt)).length = 2 * (p0 :: pt).length :=
        groupsToBytes_length _
      have hfields : splitOnChar ':'
          (joinSep ':' ((p0 :: pt).map hexChars) ++ ':' :: ':' :: []) =
          (p0 :: pt).map hexChars ++ [[], []] := by
        rw [splitOnChar_joinSep_append hpf_ne hpf_fields]
        rfl
      have hsae : splitAtFirstEmpty ((p0 :: pt).map hexChars ++ [[], []]) =
          some ((p0 :: pt).map hexChars, [[]]) := by
        have := splitAtFirstEmpty_append (p := (p0 :: pt).map hexChars)
          (mem_map_hexChars_ne_nil (g := p0 :: pt)) [[]]
        simpa using this
      have hbefore : ((p0 :: pt).map hexChars).isEmpty = false := by simp
      have h16 : 16 - (groupsToBytes (p0 :: pt)).length = 2 * l := by
        rw [hplen]; simp only [List.length_cons, List.length_nil] at hsum ⊢; omega
      have hle14 : (groupsToBytes (p0 :: pt)).length ≤ 14 := by
        rw [hplen]; simp only [List.length_cons, List.length_nil] at hsum ⊢; omega
      simp only [List.map_nil, joinSep, groupsToBytes_nil, List.append_nil]
      simp only [parseIPv6Chars, hfields, hsae, hbefore, if_false,
        List.isEmpty_cons, if_true, if_pos rfl, hfsp, hle14, h16]
      simp
    · -- "::" in the middle
      have hpf_ne : (p0 :: pt).map hexChars ≠ [] := by simp
      have hpf_fields : ∀ f ∈ (p0 :: pt).map hexChars, ':' ∉ f :=
        mem_map_hexChars_no_colon (g := p0 :: pt)
      have hqf_ne : (q0 :: qt).map hexChars ≠ [] := by simp
      have hjq := splitOnChar_joinSep hqf_ne (mem_map_hexChars_no_colon (g := q0 :: qt))
      have hfsp := parseFieldSeq_hexChars false (p0 :: pt) hpm
      have hfsq := parseFieldSeq_hexChars true (q0 :: qt) hqm
      have hplen : (groupsToBytes (p0 :: pt)).length = 2 * (p0 :: pt).length :=
        groupsToBytes_length _
      have hqlen : (groupsToBytes (q0 :: qt)).length = 2 * (q0 :: qt).length :=
        groupsToBytes_length _
      have hfields : splitOnChar ':'
          (joinSep ':' ((p0 :: pt).map hexChars) ++ ':' :: ':' ::
            joinSep ':' ((q0 :: qt).map hexChars)) =
          (p0 :: pt).map hexChars ++ [] :: (q0 :: qt).map hexChars := by
        rw [splitOnChar_joinSep_append hpf_ne hpf_fields, splitOnChar_cons_sep, hjq]
      have hsae : splitAtFirstEmpty
          ((p0 :: pt).map hexChars ++ [] :: (q0 :: qt).map hexChars) =
          some ((p0 :: pt).map hexChars, (q0 :: qt).map hexChars) :=
        splitAtFirstEmpty_append (mem_map_hexChars_ne_nil (g := p0 :: pt)) _
      have hbefore : ((p0 :: pt).map hexChars).isEmpty = false := by simp
      have haft_ne : (q0 :: qt).map hexChars ≠ [[]] := map_hexChars_ne_single_nil q0 qt
      have haft_nonempty : allNonempty ((q0 :: qt).map hexChars) = true :=
        allNonempty_map_hexChars _
      have haft_isEmpty : ((q0 :: qt).map hexChars).isEmpty = false := by simp
      have h16 : 16 - (groupsToBytes (p0 :: pt)).length -
          (groupsToBytes (q0 :: qt)).length = 2 * l := by
        rw [hplen, hqlen]; simp only [List.length_cons, List.length_nil] at hsum ⊢; omega
      have hle14 : (groupsToBytes (p0 :: pt)).length +
          (groupsToBytes (q0 :: qt)).length ≤ 14 := by
        rw [hplen, hqlen]; simp only [List.length_cons, List.length_nil] at hsum ⊢; omega
      simp only [parseIPv6Chars, hfields, hsae, hbefore, if_false, haft_isEmpty,
        if_neg haft_ne, haft_nonempty, Bool.not_true, if_false, hfsp, hfsq,
        hle14, h16, if_pos]
      simp

/-- RFC 5952 print/parse round trip over the 16-byte form. -/
theorem parseIPv6Chars_v6String {gs : List Nat} (hlen : gs.length = 8)
    (hg : ∀ g ∈ gs, g < 65536) :
    parseIPv6Chars (v6String gs) = some (groupsToBytes gs) := by
  cases hbr : bestRun (zeroRuns gs 0) with
  | none =>
    have hv6 : v6String gs = joinSep ':' (gs.map hexChars) := by
      simp [v6String, hbr]
    have hmapne : gs.map hexChars ≠ [] := by
      simp only [ne_eq, List.map_eq_nil_iff]
      intro h
      rw [h] at hlen
      simp at hlen
    have hfs := splitOnChar_joinSep hmapne (mem_map_hexChars_no_colon (g := gs))
    have hempty : splitAtFirstEmpty (gs.map hexChars) = none :=
      splitAtFirstEmpty_all_ne (mem_map_hexChars_ne_nil (g := gs))
    have hpf := parseFieldSeq_hexChars true gs hg
    have hblen : (groupsToBytes gs).length = 16 := by
      rw [groupsToBytes_length, hlen]
    rw [hv6]
    simp only [parseIPv6Chars, hfs, hempty, hpf, hblen]
    simp
  | some r =>
    obtain ⟨s, l⟩ := r
    obtain ⟨hl2, p, q, hgs, hp⟩ := bestRun_zeroRuns_decomp hbr
    have hql : p.length + l + q.length = 8 := by
      have hc := congrArg List.length hgs
      simp only [List.length_append, List.length_replicate] at hc
      omega
    have htake : gs.take s = p := by
      rw [hgs, List.append_assoc]
      exact List.take_left' hp
    have hdrop : gs.drop (s + l) = q := by
      rw [hgs]
      apply List.drop_left'
      simp [hp]
    have hv6 : v6String gs =
        joinSep ':' (p.map hexChars) ++ ':' :: ':' :: joinSep ':' (q.map hexChars) := by
      simp only [v6String, hbr, htake, hdrop]
    have hpmem : ∀ g ∈ p, g < 65536 := fun g hgm => hg g (by rw [hgs]; simp [hgm])
    have hqmem : ∀ g ∈ q, g < 65536 := fun g hgm => hg g (by rw [hgs]; simp [hgm])
    have hgsbytes : groupsToBytes gs =
        groupsToBytes p ++ List.replicate (2 * l) 0 ++ groupsToBytes q := by
      rw [hgs, groupsToBytes_append, groupsToBytes_append, groupsToBytes_replicate]
    rw [hv6, hgsbytes]
    exact parseIPv6Chars_compressed p q l hl2 hql hpmem hqmem

theorem colon_mem_v6String {gs : List Nat} (hlen : gs.length = 8) : ':' ∈ v6String gs := by
  rcases hbr : bestRun (zeroRuns gs 0) with _ | ⟨s, l⟩
  · have hv6 : v6String gs = joinSep ':' (gs.map hexChars) := by simp [v6String, hbr]
    rw [hv6]
    rcases gs with _ | ⟨a, _ | ⟨b, t⟩⟩
    · simp at hlen
    · simp at hlen
    · simpa using sep_mem_joinSep ':' (hexChars a) (hexChars b) (t.map hexChars)
  · have hv6 : v6String gs = joinSep ':' ((gs.take s).map hexChars) ++ ':' :: ':' ::
        joinSep ':' ((gs.drop (s + l)).map hexChars) := by simp [v6String, hbr]
    rw [hv6]
    simp

theorem to4_some_of {ip q : List Nat} (hlen : ip.length = 16) (h : to4 ip = some q) :
    ip = v4InV6 ++ q ∧ q.length = 4 := by
  unfold to4 at h
  rw [if_neg (by omega)] at h
  split at h
  case isTrue hc =>
    injection h with h'
    constructor
    · conv_lhs => rw [← List.take_append_drop 12 ip]
      rw [hc.2, h']
    · rw [← h']
      simp [hlen]
  case isFalse => exact absurd h (by simp)

/-- Go print/parse round trip for IP addresses: `net.ParseIP` of
`net.IP.String` of a parsed (hence 16-byte) address gives the address back. -/
theorem parseIPChars_ipString {ip : List Nat} (hlen : ip.length = 16)
    (hb : ∀ b ∈ ip, b < 256) : parseIPChars (ipString ip) = some ip := by
  have hne : ip.isEmpty = false := by
    rcases ip with _ | _
    · simp at hlen
    · simp
  cases hto4 : to4 ip with
  | some q =>
    obtain ⟨hip, hq4⟩ := to4_some_of hlen hto4
    have hqb : ∀ b ∈ q, b < 256 := fun b hbm => hb b (by rw [hip]; simp [hbm])
    have hips : ipString ip = v4String q := by simp [ipString, hne, hto4]
    have hq' : ∃ a b c d, q = [a, b, c, d] := by
      rcases q with _ | ⟨a, q⟩; · simp at hq4
      rcases q with _ | ⟨b, q⟩; · simp at hq4
      rcases q with _ | ⟨c, q⟩; · simp at hq4
      rcases q with _ | ⟨d, q⟩; · simp at hq4
      rcases q with _ | ⟨e, q⟩
      · exact ⟨a, b, c, d, rfl⟩
      · simp at hq4
    obtain ⟨a, b, c, d, rfl⟩ := hq'
    have hdotmem : '.' ∈ v4String [a, b, c, d] := by
      simpa [v4String] using
        sep_mem_joinSep '.' (decChars a) (decChars b) [decChars c, decChars d]
    have hfind := find?_dot (v4String_chars (q := [a, b, c, d])) hdotmem
    rw [hips]
    simp only [parseIPChars, hfind, if_true]
    simp only [parseIPv4Chars, parseV4Quad_v4String hq4 hqb, Option.map_some']
    rw [← hip]
  | none =>
    have hips : ipString ip = v6String (bytesToGroups ip) := by
      simp [ipString, hne, hto4, hlen]
    have hglen : (bytesToGroups ip).length = 8 := by
      rw [bytesToGroups_length, hlen]
    have hglt := bytesToGroups_lt hb
    have hcolon := colon_mem_v6String hglen
    have hfind := find?_colon (v6String_chars (g := bytesToGroups ip)) hcolon
    rw [hips]
    simp only [parseIPChars, hfind]
    rw [if_neg (by decide : ¬ (':' = '.'))]
    rw [parseIPv6Chars_v6String hglen hglt,
      groupsToBytes_bytesToGroups (by omega) hb]

/-! ## The URL model

The fragment of Go `net/url.Parse` that `ParseDnsServer` exercises:
fragment and query splitting, scheme extraction, authority/host parsing
with the `validOptionalPort` check, and `Hostname()`/`Port()` via
`splitHostPort`.  `%`-escape decoding and userinfo validation are not
modelled; no string the repository's configuration grammar or the
`DnsServer` printer produces contains `%` or `@`. -/

def isSchemeAlpha (c : Char) : Bool := ('a' ≤ c && c ≤ 'z') || ('A' ≤ c && c ≤ 'Z')

def isSchemeOther (c : Char) : Bool := isDigit c || c = '+' || c = '-' || c = '.'

def toLowerChar (c : Char) : Char :=
  if 'A' ≤ c && c ≤ 'Z' then Char.ofNat (c.toNat + 32) else c

/-- The scan of Go `getScheme` after the first character: scheme
characters accumulate; a `':'` ends the scheme; any other character means
the URL has no scheme. -/
def getSchemeLoop (orig acc : List Char) : List Char → Except String (List Char × List Char)
  | [] => .ok ([], orig)
  | c :: t =>
    if isSchemeAlpha c || isSchemeOther c then getSchemeLoop orig (acc ++ [c]) t
    else if c = ':' then .ok (acc.map toLowerChar, t)
    else .ok ([], orig)

/-- Go `getScheme`: the (lowercased) scheme before the first `':'` and the
remainder; an empty scheme result means the URL carries none. -/
def getScheme (s : List Char) : Except String (List Char × List Char) :=
  match s with
  | [] => .ok ([], [])
  | c :: t =>
    if isSchemeAlpha c then getSchemeLoop (c :: t) [c] t
    else if c = ':' then .error "missing protocol scheme"
    else .ok ([], c :: t)

/-- Go `validOptionalPort`: empty, or `':'` followed by decimal digits
(possibly none). -/
def validOptionalPort (p : List Char) : Bool :=
  match p with
  | [] => true
  | c :: t => c = ':' && t.all isDigit

/-- Splits around the LAST occurrence of `c`, as Go's
`strings.LastIndex`-based host handling does. -/
def breakAtLastChar (c : Char) : List Char → Option (List Char × List Char)
  | [] => none
  | x :: t =>
    match breakAtLastChar c t with
    | some (b, a) => some (x :: b, a)
    | none => if x = c then some ([], t) else none

/-- Go `parseHost` (without `%`-escape decoding): a bracketed host needs a
closing bracket and a valid optional port after it; otherwise everything
after the last `':'` must be a valid port. -/
def parseHostModel (host : List Char) : Except String (List Char) :=
  if host.headD ' ' = '[' then
    match breakAtLastChar ']' host with
    | none => .error "missing right bracket in host"
    | some (_, colonPort) =>
      if validOptionalPort colonPort then .ok host else .error "invalid port after host"
  else
    match breakAtLastChar ':' host with
    | none => .ok host
    | some (_, port) =>
      if validOptionalPort (':' :: port) then .ok host else .error "invalid port after host"

/-- Go `splitHostPort` (the helper behind `URL.Hostname` and `URL.Port`). -/
def splitHostPort (hostPort : List Char) : List Char × List Char :=
  let hp :=
    match breakAtLastChar ':' hostPort with
    | some (b, a) => if validOptionalPort (':' :: a) then (b, a) else (hostPort, [])
    | none => (hostPort, [])
  if hp.1.headD ' ' = '[' ∧ hp.1.getLast? = some ']' then (hp.1.drop 1 |>.dropLast, hp.2)
  else hp

/-- The part of the authority after the last `'@'` (Go `parseAuthority`
host extraction; userinfo validation is not modelled). -/
def afterLastAt (authority : List Char) : List Char :=
  match breakAtLastChar '@' authority with
  | some (_, a) => a
  | none => authority

def containsCTL (s : List Char) : Bool := s.any (fun c => c.toNat < 32 || c.toNat = 127)

/-- Everything before the first occurrence of `c` (Go `strings.Cut`). -/
def cutAtChar (c : Char) (l : List Char) : List Char := l.takeWhile (· ≠ c)

def startsWith2Slash : List Char → Bool
  | '/' :: '/' :: _ => true
  | _ => false

def startsWith3Slash : List Char → Bool
  | '/' :: '/' :: '/' :: _ => true
  | _ => false

/-- The scheme and host of a parsed URL; the only parts `ParseDnsServer`
reads. -/
structure GoURL where
  scheme : List Char
  host : List Char
deriving DecidableEq, Repr

/-- Go `net/url.Parse` on the fragment of URL syntax reachable from
`ParseDnsServer`: split fragment, extract scheme, split query, then either
an authority (`//host...`), an opaque remainder, or a path. -/
def urlParse (rawURL : List Char) : Except String GoURL :=
  if containsCTL rawURL then .error "invalid control character in URL"
  else
    match getScheme (cutAtChar '#' rawURL) with
    | .error e => .error e
    | .ok (scheme, rest0) =>
      let rest := cutAtChar '?' rest0
      if rest.headD ' ' ≠ '/' then
        if scheme ≠ [] then .ok ⟨scheme, []⟩  -- opaque; Host stays empty
        else if (rest.takeWhile (· ≠ '/')).contains ':' then
          .error "first path segment in URL cannot contain colon"
        else .ok ⟨[], []⟩
      else if (decide (scheme ≠ []) || !startsWith3Slash rest) && startsWith2Slash rest then
        match parseHostModel (afterLastAt ((rest.drop 2).takeWhile (· ≠ '/'))) with
        | .error e => .error e
        | .ok h => .ok ⟨scheme, h⟩
      else .ok ⟨scheme, []⟩

/-- Go `strconv.Atoi` on the strings `ParseDnsServer` can feed it (these
are all-digit strings, `net/url` having validated the port): the value,
unless it overflows a 64-bit int. -/
def goAtoi (s : List Char) : Option Nat :=
  if s.isEmpty then none
  else if !s.all isDigit then none
  else if decValue s ≤ 9223372036854775807 then some (decValue s) else none

/-! ## `DnsServer`: the server descriptor of `src/dns/dns.go` -/

/-- `type DnsServer struct` of `src/dns/dns.go`.  `Port` is Go `int`; the
parser only ever produces values in `0 .. 2^63-1`, so `Nat` carries them
faithfully. -/
structure DnsServer where
  Network : String
  IP : List Nat
  Port : Nat
deriving DecidableEq, Repr

def startsSlashSlash : List Char → Bool
  | '/' :: '/' :: _ => true
  | _ => false

/-- `strings.Index(value, "://") >= 0`. -/
def hasSchemeSep : List Char → Bool
  | [] => false
  | c :: t => (c = ':' && startsSlashSlash t) || hasSchemeSep t

/-- The default-scheme step of `ParseDnsServer`:
`if strings.Index(value, "://") < 0 { value = "udp://" + value }`. -/
def withDefaultScheme (value : String) : List Char :=
  if hasSchemeSep value.data then value.data
  else 'u' :: 'd' :: 'p' :: ':' :: '/' :: '/' :: value.data

/-- `ParseDnsServer` of `src/dns/dns.go` (153-180): prepend `udp://` when
the value carries no `://`; parse as a URL; accept only the `udp` scheme;
the host must be an IP literal; the port defaults to 53 and must
otherwise be a valid integer. -/
def ParseDnsServer (value : String) : Except String DnsServer :=
  let v := withDefaultScheme value
  match urlParse v with
  | .error e => .error e
  | .ok u =>
    if u.scheme ≠ "udp".data then
      .error ("[DNS.Servers] [" ++ (⟨v⟩ : String) ++ "] not support [" ++ (⟨u.scheme⟩ : String) ++ "]")
    else
      match parseIPChars (splitHostPort u.host).1 with
      | none =>
        .error ("[DNS.Servers] [" ++ (⟨v⟩ : String) ++ "] [" ++
          (⟨(splitHostPort u.host).1⟩ : String) ++ "] ip invalid")
      | some ip =>
        if (splitHostPort u.host).2.isEmpty then .ok ⟨⟨u.scheme⟩, ip, 53⟩
        else
          match goAtoi (splitHostPort u.host).2 with
          | none =>
            .error ("[DNS.Servers] [" ++ (⟨v⟩ : String) ++ "] [" ++
              (⟨(splitHostPort u.host).2⟩ : String) ++ "] port invalid")
          | some p => .ok ⟨⟨u.scheme⟩, ip, p⟩

/-- Go `net.JoinHostPort`. -/
def joinHostPort (host port : List Char) : List Char :=
  if host.contains ':' then '[' :: (host ++ ']' :: ':' :: port) else host ++ ':' :: port

/-- `(*DnsServer).Addr` of `src/dns/dns.go`:
`net.JoinHostPort(d.IP.String(), strconv.Itoa(d.Port))`. -/
def DnsServer.Addr (d : DnsServer) : List Char :=
  joinHostPort (ipString d.IP) (decChars d.Port)

/-- `(*DnsServer).String` of `src/dns/dns.go`: `"<network>://<addr>"`. -/
def DnsServer.str (d : DnsServer) : String :=
  d.Network ++ "://" ++ (⟨d.Addr⟩ : String)

instance {e a : Type} [DecidableEq e] [DecidableEq a] : DecidableEq (Except e a) :=
  fun x y =>
  match x, y with
  | .ok v, .ok w => if h : v = w then .isTrue (by rw [h]) else .isFalse (by simp [h])
  | .error v, .error w => if h : v = w then .isTrue (by rw [h]) else .isFalse (by simp [h])
  | .ok _, .error _ => .isFalse (by simp)
  | .error _, .ok _ => .isFalse (by simp)

example : ParseDnsServer "8.8.8.8" =
    .ok ⟨"udp", v4InV6 ++ [8, 8, 8, 8], 53⟩ := by decide

example : ParseDnsServer "udp://1.1.1.1:5353" =
    .ok ⟨"udp", v4InV6 ++ [1, 1, 1, 1], 5353⟩ := by decide

example : (ParseDnsServer "tcp://1.1.1.1").toOption = none := by decide

example : (ParseDnsServer "udp://not-an-ip").toOption = none := by decide

example : ParseDnsServer "udp://[2001:db8::1]:53" =
    .ok ⟨"udp", [32, 1, 13, 184, 0, 0, 0, 0, 0, 0, 0, 0, 0, 0, 0, 1], 53⟩ := by decide

example : (ParseDnsServer "8.8.8.8").map DnsServer.str = .ok "udp://8.8.8.8:53" := by decide

/-! ## The resolution record and the handler chain of `src/dns/dns.go` -/

/-- `TypSystem` of dns.go. -/
def TypSystem : String := "system"

/-- `TypStatic` of dns.go. -/
def TypStatic : String := "static"

/-- `TypDynamic` of dns.go. -/
def TypDynamic : String := "dynamic"

/-- The zero value of `DnsServer` (`DnsServer{}`). -/
def zeroDnsServer : DnsServer := ⟨"", [], 0⟩

/-- `type DNS struct` of dns.go.  Field defaults are the Go zero values;
a nil slice or nil IP is the empty list. -/
structure DNS where
  Typ : String := ""
  MappingDomain : String := ""
  Domain : String := ""
  IP : List (List Nat) := []
  Server : List DnsServer := []
  CurrentServer : DnsServer := zeroDnsServer
  CurrentIP : List Nat := []
  CurrentCountry : String := ""
  ExpireAt : Nat := 0
deriving DecidableEq, Repr

/-- The default value of the overridable global `SelectIP` (dns.go:75):
the first address, or nil. -/
def SelectIP (ips : List (List Nat)) : List Nat :=
  match ips with
  | [] => []
  | ip :: _ => ip

/-- The match test both mapping handlers share (dns.go:96-100 and
dns.go:124-128): `mappingDomain[0] == '*' &&
strings.HasSuffix(domain, mappingDomain[1:])`, else `mappingDomain ==
domain`.  `none` models the index-out-of-range panic that
`mappingDomain[0]` raises on an empty pattern (the index is evaluated
before either comparison). -/
def mappingMatches (p d : String) : Option Bool :=
  match p.data with
  | [] => none
  | c :: rest => some ((c = '*' && rest.isSuffixOf d.data) || p = d)

/-- The value `ResolveDomain` returns to its caller: the winning
attempt's addresses and server, or the cancellation error — in which case
the Go function returns `(nil, DnsServer{}, err)`. -/
inductive RaceRes where
  | ok (ips : List (List Nat)) (server : DnsServer)
  | fail
deriving DecidableEq, Repr

/-- The environment a query runs against: the value `ResolveDomain` would
return for a server set and domain, the geolocation collaborator
(`GeoLookUp` — code of this repository not under src/, modelled from the
spec as an arbitrary total country lookup, absent country = `""`), the
cache layer's lookup state (modelled from the spec, §4.5), and the
externally supplied fallback handler's behavior. -/
structure Env where
  race : List DnsServer → String → RaceRes
  geo : List Nat → String
  cache : String → Option DNS
  fallback : String → DNS

/-- The handler chain as data: one constructor per closure shape the
builders of dns.go produce, each owning its `next` handler.  `nilH`
models a nil `Handle` value, which Go panics on calling. -/
inductive Handle where
  | nilH
  | fallbackH
  | generalH (servers : List DnsServer) (next : Handle)
  | cacheH (next : Handle)
  | mappingServerH (pat : String) (servers : List DnsServer) (next : Handle)
  | mappingStaticH (pat : String) (ips : List (List Nat)) (next : Handle)
deriving DecidableEq, Repr

/-- The outcome of one query: a record, or a Go runtime panic. -/
inductive EvalRes where
  | crash
  | ret (d : DNS)
deriving DecidableEq, Repr

/-- Evaluates one query against a handler chain; returns the outcome and
whether the externally supplied fallback stage ran.  Each arm transcribes
the corresponding closure of dns.go: the general resolver (dns.go:57-71)
builds its `dynamic` record, and on a race failure calls `next` and
discards that result, still returning its own record; the cache stage
(modelled from the spec, §4.5) serves a live entry or delegates; the
mapping handlers (dns.go:95-113 and dns.go:123-137) delegate on a miss
and otherwise answer with a `static` record, the static-IP shape indexing
`netIP[0]`. -/
def runHandle (env : Env) : Handle → String → EvalRes × Bool
  | .nilH, _ => (.crash, false)
  | .fallbackH, d => (.ret (env.fallback d), true)
  | .generalH servers next, d =>
    match env.race servers d with
    | .ok ips srv =>
      (.ret { Typ := TypDynamic, Domain := d, IP := ips, CurrentServer := srv,
              CurrentIP := SelectIP ips, CurrentCountry := env.geo (SelectIP ips) }, false)
    | .fail =>
      match runHandle env next d with
      | (.crash, b) => (.crash, b)
      | (.ret _, b) =>
        (.ret { Typ := TypDynamic, Domain := d, IP := [],
                CurrentIP := SelectIP [], CurrentCountry := env.geo (SelectIP []) }, b)
  | .cacheH next, d =>
    match env.cache d with
    | some entry => (.ret entry, false)
    | none => runHandle env next d
  | .mappingServerH p servers next, d =>
    match mappingMatches p d with
    | none => (.crash, false)
    | some false => runHandle env next d
    | some true =>
      match env.race servers d with
      | .ok ips srv =>
        (.ret { Typ := TypStatic, MappingDomain := p, Domain := d, Server := servers,
                IP := ips, CurrentServer := srv }, false)
      | .fail =>
        (.ret { Typ := TypStatic, MappingDomain := p, Domain := d,
                Server := servers }, false)
  | .mappingStaticH p ips next, d =>
    match mappingMatches p d with
    | none => (.crash, false)
    | some false => runHandle env next d
    | some true =>
      match ips with
      | [] => (.crash, false)
      | ip0 :: _ =>
        (.ret { Typ := TypStatic, MappingDomain := p, Domain := d, IP := ips,
                CurrentIP := ip0, CurrentCountry := env.geo ip0 }, false)

/-! ## The chain builders of `src/dns/dns.go` -/

/-- The server-parsing loop shared by `newGeneralHandle` and
`newMappingHandle`: parses in order, aborting at the first failure. -/
def parseServerList : List String → Except String (List DnsServer)
  | [] => .ok []
  | v :: rest => do
    let s ← ParseDnsServer v
    let t ← parseServerList rest
    pure (s :: t)

/-- `newGeneralHandle` (dns.go:48-72): parses the general server list; a
parse failure returns `(nil, err)`; otherwise the general resolver
wrapping `next`. -/
def newGeneralHandle (servers : List String) (next : Handle) :
    Handle × Option String :=
  match parseServerList servers with
  | .error e => (.nilH, some e)
  | .ok addrs => (.generalH addrs next, none)

/-- Modelled from the spec: `newCacheHandle` is code of this repository
that is not under src/ (only its call site, dns.go:37, is).  Per spec
§4.5 the cache layer wraps `next`, serving live entries and delegating on
a miss; nothing in the spec lets its construction fail. -/
def newCacheHandle (next : Handle) : Handle × Option String :=
  (.cacheH next, none)

/-- The literal-IP parsing loop of `newMappingHandle` (dns.go:115-121). -/
def parseIPList (mappingDomain : String) : List String → Except String (List (List Nat))
  | [] => .ok []
  | v :: rest =>
    match parseIPChars v.data with
    | none =>
      .error ("DNS.Mapping[domain:" ++ mappingDomain ++ "], ip[" ++ v ++ "] invalid")
    | some ip => (parseIPList mappingDomain rest).map (fun t => ip :: t)

/-- `newMappingHandle` (dns.go:82-139): requires at least one of
`servers`/`ips`; a non-empty `servers` builds the server-backed handler
(`ips` then ignored); otherwise the static-IP handler. -/
def newMappingHandle (mappingDomain : String) (servers ips : List String)
    (next : Handle) : Except String Handle :=
  if servers.isEmpty && ips.isEmpty then
    .error ("DNS.Mapping[domain:" ++ mappingDomain ++ "], server and ip is empty")
  else if !servers.isEmpty then
    (parseServerList servers).map (fun addrs => .mappingServerH mappingDomain addrs next)
  else
    (parseIPList mappingDomain ips).map
      (fun netIPs => .mappingStaticH mappingDomain netIPs next)

/-- Modelled from the spec: one mapping rule of the configuration
(`config.DNS.Mapping[i]`, package `conf/model`, not under src/): a domain
pattern, an optional server-address list (`Server`), and an optional
literal-IP list (`IP`). -/
structure MappingRule where
  Domain : String
  Server : List String
  IP : List String
deriving DecidableEq, Repr

/-- Modelled from the spec: the DNS section of the configuration
(`config.DNS`, package `conf/model`, not under src/). -/
structure DNSConfig where
  Servers : List String
  IncludeSystem : Bool
  Mapping : List MappingRule
deriving DecidableEq, Repr

/-- The loop of `ApplyConfig` (dns.go:38-44): wraps the handle with the
mapping rules from the last to the first, so the first-configured rule
ends outermost; the first build error aborts with `(nil, err)`.
NOTE (dns.go:40): the call site passes `v.IP` into `newMappingHandle`'s
`servers` parameter and `v.Server` into its `ips` parameter. -/
def mappingFold (rules : List MappingRule) (h : Handle) :
    Handle × Option String :=
  match rules with
  | [] => (h, none)
  | r :: rest =>
    match mappingFold rest h with
    | (_, some e) => (.nilH, some e)
    | (h2, none) =>
      match newMappingHandle r.Domain r.IP r.Server h2 with
      | .error e => (.nilH, some e)
      | .ok h3 => (h3, none)

/-- `ApplyConfig` (dns.go:26-46).  `InitGeoIP` is code of this repository
not under src/; its outcome is the `geoInitErr` argument (modelled from
the spec: geolocation initialization either succeeds or aborts the
build).  `IncludeSystem` only guards an empty TODO block.  The chain is
fallback → general → cache → mapping rules in reverse order.
NOTE (dns.go:36): the error returned by `newGeneralHandle` is discarded
(`handle, _ = ...`). -/
def applyConfig (geoInitErr : Option String) (config : DNSConfig) :
    Handle × Option String :=
  match geoInitErr with
  | some e => (.nilH, some e)
  | none =>
    let h1 := (newGeneralHandle config.Servers .fallbackH).1
    let h2 := (newCacheHandle h1).1
    mappingFold config.Mapping h2

/-! ## The race engine `ResolveDomain` (dns.go:200-231) -/

/-- An answer-section record of a DNS reply: an A record with its
address, or any other record (ignored by the extraction loop). -/
inductive RR where
  | A (ip : List Nat)
  | other
deriving DecidableEq, Repr

/-- What one `dns.Exchange` call produced: `msg = none` models a nil
`*dns.Msg` — what a transport failure yields — and `isErr` the returned
error. -/
structure ExchangeResult where
  msg : Option (List RR)
  isErr : Bool
deriving DecidableEq, Repr

/-- What one per-server goroutine does after its exchange: send a reply
on the channel, or panic. -/
inductive AttemptOutcome where
  | send (ips : List (List Nat)) (server : DnsServer)
  | panic
deriving DecidableEq, Repr

/-- The A-record extraction loop (dns.go:215-221). -/
def extractA (answer : List RR) : List (List Nat) :=
  answer.filterMap (fun rr => match rr with | .A ip => some ip | .other => none)

/-- One per-server attempt of `ResolveDomain` (dns.go:207-223): the
goroutine body from the `dns.Exchange` call to the channel send.  The
code builds a (never-emitted) log entry when `err != nil` and then reads
`r.Answer` unconditionally; on a nil reply that read panics. -/
def raceAttempt (ex : ExchangeResult) (s : DnsServer) : AttemptOutcome :=
  match ex.msg with
  | none => .panic
  | some answer => .send (extractA answer) s

/-- What the select of `ResolveDomain` can produce. -/
inductive RaceReturn where
  | win (ips : List (List Nat)) (server : DnsServer)
  | cancelled
  | processCrash
deriving DecidableEq, Repr

/-- The first channel delivery among the attempts, every server's attempt
delivering at `deliverAt s`; the earlier-listed server wins a tie (Go's
select picks among simultaneously ready cases nondeterministically; no
theorem below rests on a tie). -/
def firstDelivery (servers : List DnsServer) (deliverAt : DnsServer → Nat) :
    Option (Nat × DnsServer) :=
  match servers with
  | [] => none
  | s :: rest =>
    match firstDelivery rest deliverAt with
    | none => some (deliverAt s, s)
    | some (t, w) => if deliverAt s ≤ t then some (deliverAt s, s) else some (t, w)

/-- `ResolveDomain` (dns.go:200-231) under an explicit schedule: one
goroutine per server, each delivering its attempt at `deliverAt s`; the
select returns the first delivery, or the cancellation error once the
caller's scope is cancelled (`cancelAt`), and never returns — `none` —
when there is no delivery and no cancellation.  The `Nat` in the result
is the time at which the call returns.  An attempt whose exchange gave a
nil reply panics, which in Go kills the whole process
(`processCrash`). -/
def resolveDomainModel (servers : List DnsServer) (exch : DnsServer → ExchangeResult)
    (deliverAt : DnsServer → Nat) (cancelAt : Option Nat) :
    Option (Nat × RaceReturn) :=
  if servers.any (fun s => decide (raceAttempt (exch s) s = AttemptOutcome.panic)) then
    some (0, .processCrash)
  else
    match firstDelivery servers deliverAt, cancelAt with
    | none, none => none
    | none, some tc => some (tc, .cancelled)
    | some (t, w), none =>
      match raceAttempt (exch w) w with
      | .send ips srv => some (t, .win ips srv)
      | .panic => some (t, .processCrash)
    | some (t, w), some tc =>
      if t ≤ tc then
        match raceAttempt (exch w) w with
        | .send ips srv => some (t, .win ips srv)
        | .panic => some (t, .processCrash)
      else some (tc, .cancelled)

/-- The Mapping Matcher as the spec states it (§4.3): a pattern beginning
with `'*'` matches iff the domain ends with the pattern minus its leading
star; any other pattern matches iff the domain equals it.  Stated from
the spec's words, to be compared with the code-level `mappingMatches`. -/
def matchesSpec (p d : String) : Bool :=
  match p.data with
  | '*' :: rest => rest.isSuffixOf d.data
  | _ => p = d

/-- A concrete environment for evaluating chains on sample inputs. -/
def testEnv : Env where
  race := fun _ _ => .fail
  geo := fun _ => ""
  cache := fun _ => none
  fallback := fun d => { Typ := TypSystem, Domain := d }

/-- `testEnv` with a prescribed race outcome. -/
def testEnvRace (r : RaceRes) : Env :=
  { testEnv with race := fun _ _ => r }

/-! ## Shared lemmas about the mapping match -/

theorem string_ne_empty_data {p : String} (hp : p ≠ "") : p.data ≠ [] := by
  intro h
  apply hp
  cases p
  simp at h
  simp [h]

/-- On a non-empty pattern the code's match test agrees with the spec's
matching rule.  (When the pattern starts with `'*'` and equals the domain,
the suffix test also holds, so the code's extra `p == d` disjunct never
changes the outcome.) -/
theorem mappingMatches_eq_spec {p : String} (d : String) (hp : p ≠ "") :
    mappingMatches p d = some (matchesSpec p d) := by
  have hd := string_ne_empty_data hp
  rcases hc : p.data with _ | ⟨c, rest⟩
  · exact absurd hc hd
  · by_cases hstar : c = '*'
    · subst hstar
      simp only [mappingMatches, matchesSpec, hc, Option.some.injEq]
      by_cases hsuf : rest.isSuffixOf d.data
      · simp [hsuf]
      · have hne : p ≠ d := by
          intro he
          apply hsuf
          have : d.data = '*' :: rest := by rw [← he, hc]
          rw [List.isSuffixOf_iff_suffix, this]
          exact List.suffix_cons '*' rest
        simp [hsuf, hne]
    · simp only [mappingMatches, hc, Option.some.injEq]
      have hspec : matchesSpec p d = decide (p = d) := by
        simp only [matchesSpec, hc]
        split
        next rest2 heq =>
          injection heq with h1 h2
          exact absurd h1 hstar
        next => rfl
      rw [hspec]
      simp [hstar]

/-! ## The claims -/

/-- The configuration of claim C1: one mapping rule with a non-empty
explicit IP list and an empty server list, no general servers. -/
def c1Config : DNSConfig :=
  { Servers := [], IncludeSystem := false,
    Mapping := [{ Domain := "a.com", Server := [], IP := ["1.2.3.4"] }] }

/-- C1 (refuted by the code): through `ApplyConfig`, a mapping rule with
only literal IPs is built as a SERVER-BACKED handler — dns.go:40 passes
the rule's IP list into `newMappingHandle`'s `servers` parameter — racing
1.2.3.4:53 as a DNS server.  A matching query therefore consults the race
engine (a network call) and returns whatever that race yields, not the
configured IP list. -/
theorem C1_static_rule_races :
    applyConfig none c1Config =
      (.mappingServerH "a.com" [⟨"udp", v4InV6 ++ [1, 2, 3, 4], 53⟩]
        (.cacheH (.generalH [] .fallbackH)), none) ∧
    (∀ (ips : List (List Nat)) (srv : DnsServer),
      (runHandle (testEnvRace (.ok ips srv)) ((applyConfig none c1Config).1) "a.com").1 =
        .ret { Typ := TypStatic, MappingDomain := "a.com", Domain := "a.com",
               Server := [⟨"udp", v4InV6 ++ [1, 2, 3, 4], 53⟩], IP := ips,
               CurrentServer := srv }) := by
  refine ⟨rfl, fun ips srv => rfl⟩

/-- The configuration of claim C2: a general server string that fails
server-address parsing, no mapping rules. -/
def c2Config : DNSConfig :=
  { Servers := ["tcp://1.1.1.1"], IncludeSystem := false, Mapping := [] }

/-- C2 (refuted by the code): the general server string is indeed
rejected by the parser, yet `ApplyConfig` returns NO error — dns.go:36
discards `newGeneralHandle`'s error — and the returned chain's general
stage is a nil handle, so a cache-miss query crashes. -/
theorem C2_general_error_discarded :
    (parseServerList ["tcp://1.1.1.1"]).toOption = none ∧
    applyConfig none c2Config = (.cacheH .nilH, none) ∧
    runHandle testEnv ((applyConfig none c2Config).1) "x.com" = (.crash, false) := by
  exact ⟨by decide, rfl, rfl⟩

/-- C3 (refuted by the code): a per-server attempt whose exchange is a
transport failure — `dns.Exchange` returns a nil reply and an error —
panics reading `r.Answer` (dns.go:215) instead of completing with an
empty address set naming its server; an attempt that did get a reply
together with an error completes normally; and a race containing such a
failing attempt crashes the process instead of recording the failure. -/
theorem C3_attempt_panics :
    (∀ s : DnsServer, raceAttempt ⟨none, true⟩ s = .panic) ∧
    (∀ (s : DnsServer) (answer : List RR),
      raceAttempt ⟨some answer, true⟩ s = .send (extractA answer) s) ∧
    resolveDomainModel [zeroDnsServer] (fun _ => ⟨none, true⟩) (fun _ => 1) none =
      some (0, .processCrash) := by
  exact ⟨fun _ => rfl, fun _ _ => rfl, by decide⟩

/-- C4: when the race fails, the general resolver invokes the next
handler — the fallback — yet the record returned to the caller is the
general resolver's own dynamic (empty) record; the fallback's record,
whatever the fallback behavior `fb`, is computed and discarded. -/
theorem C4_general_failure (race : List DnsServer → String → RaceRes)
    (geo : List Nat → String) (cache : String → Option DNS) (fb : String → DNS)
    (servers : List DnsServer) (d : String) (hfail : race servers d = .fail) :
    runHandle ⟨race, geo, cache, fb⟩ (.generalH servers .fallbackH) d =
      (.ret { Typ := TypDynamic, Domain := d, IP := [], CurrentIP := [],
              CurrentCountry := geo [] }, true) := by
  simp only [runHandle, hfail, SelectIP]

/-- C4, witness: a concrete failing race; the fallback runs (flag
`true`) and the caller still receives the general resolver's record. -/
theorem C4_general_failure_witness :
    runHandle ⟨fun _ _ => .fail, fun _ => "ZZ", fun _ => none,
        fun d => { Typ := TypSystem, Domain := d }⟩
      (.generalH [zeroDnsServer] .fallbackH) "x.com" =
      (.ret { Typ := TypDynamic, Domain := "x.com", IP := [], CurrentIP := [],
              CurrentCountry := "ZZ" }, true) :=
  C4_general_failure (fun _ _ => .fail) (fun _ => "ZZ") (fun _ => none)
    (fun d => { Typ := TypSystem, Domain := d }) [zeroDnsServer] "x.com" rfl

/-- C5 (refuting the fail-fast claim): with zero servers and a scope that
is never cancelled, `ResolveDomain` never returns at all — `none` — so it
does not fail fast; in particular there is no return value for any
uncancelled schedule. -/
theorem C5_counterexample :
    resolveDomainModel [] (fun _ => ⟨some [], false⟩) (fun _ => 0) none = none ∧
    ¬ (∃ t r, resolveDomainModel [] (fun _ => ⟨some [], false⟩) (fun _ => 0) none =
        some (t, r)) := by
  refine ⟨rfl, ?_⟩
  rintro ⟨t, r, habs⟩
  rw [show resolveDomainModel [] (fun _ => ⟨some [], false⟩) (fun _ => 0) none = none
    from rfl] at habs
  exact absurd habs (by simp)

/-- C5 amended: a zero-server call blocks until the caller's scope is
cancelled and then returns the cancellation error at exactly the
cancellation time; with no cancellation it never returns. -/
theorem C5_zero_servers_blocks (exch : DnsServer → ExchangeResult)
    (deliverAt : DnsServer → Nat) (cancelAt : Option Nat) :
    resolveDomainModel [] exch deliverAt cancelAt =
      cancelAt.map (fun tc => (tc, RaceReturn.cancelled)) := by
  cases cancelAt <;> rfl

/-- C9: a server-backed mapping handler on a matching domain answers with
a static record carrying the matched pattern and the rule's candidate
servers, with the flag showing the rest of the chain never ran; the
result does not mention `next` at all, and when the race fails the record
simply has empty addresses. -/
theorem C9_match_is_final (env : Env) (p d : String) (srv : List DnsServer)
    (next : Handle) (hm : mappingMatches p d = some true) :
    runHandle env (.mappingServerH p srv next) d =
      (match env.race srv d with
       | .ok ips s => (.ret { Typ := TypStatic, MappingDomain := p, Domain := d,
                              Server := srv, IP := ips, CurrentServer := s }, false)
       | .fail => (.ret { Typ := TypStatic, MappingDomain := p, Domain := d,
                          Server := srv }, false)) := by
  simp only [runHandle, hm]

/-- C9, witness: a matching domain with all servers failing still yields
the static record with empty addresses, and the chain below is never
consulted. -/
theorem C9_match_is_final_witness :
    runHandle testEnv (.mappingServerH "a.com" [zeroDnsServer] .fallbackH) "a.com" =
      (.ret { Typ := TypStatic, MappingDomain := "a.com", Domain := "a.com",
              Server := [zeroDnsServer] }, false) :=
  C9_match_is_final testEnv "a.com" "a.com" [zeroDnsServer] .fallbackH (by decide)

/-- C7 (counterexample): the claim's matching rule is refuted by the code
at the empty pattern: the claim demands that a handler with pattern `""`
treat a query for `""` as a match (exact equality) and answer it rather
than delegate, but the built handler panics evaluating
`mappingDomain[0]`. -/
theorem C7_counterexample :
    ¬ (∀ (p d : String) (srv : List DnsServer) (next : Handle),
        (matchesSpec p d = true →
          (runHandle testEnv (.mappingServerH p srv next) d).1 ≠ .crash) ∧
        (matchesSpec p d = false →
          runHandle testEnv (.mappingServerH p srv next) d = runHandle testEnv next d)) := by
  intro h
  have h1 := (h "" "" [zeroDnsServer] .fallbackH).1 (by decide)
  exact h1 rfl

/-- C7 amended: for every mapping handler (either shape) whose pattern is
NON-EMPTY, the code's match test agrees with the spec's rule (wildcard
suffix / exact equality); a miss delegates to the next handler unchanged;
a match answers without consulting the next handler (the result is
independent of it), the server-backed shape with a static record carrying
the pattern. -/
theorem C7_mapping_match (env : Env) (p d : String) (hp : p ≠ "")
    (srv : List DnsServer) (ips : List (List Nat)) (next : Handle) :
    mappingMatches p d = some (matchesSpec p d) ∧
    (matchesSpec p d = false →
      runHandle env (.mappingServerH p srv next) d = runHandle env next d ∧
      runHandle env (.mappingStaticH p ips next) d = runHandle env next d) ∧
    (matchesSpec p d = true →
      (∃ rec : DNS, runHandle env (.mappingServerH p srv next) d = (.ret rec, false) ∧
        rec.MappingDomain = p ∧ rec.Typ = TypStatic) ∧
      (∀ next2, runHandle env (.mappingServerH p srv next) d =
          runHandle env (.mappingServerH p srv next2) d) ∧
      (∀ next2, runHandle env (.mappingStaticH p ips next) d =
          runHandle env (.mappingStaticH p ips next2) d)) := by
  have hm := mappingMatches_eq_spec d hp
  refine ⟨hm, ?_, ?_⟩
  · intro hf
    rw [hf] at hm
    constructor <;> simp only [runHandle, hm]
  · intro ht
    rw [ht] at hm
    refine ⟨?_, ?_, ?_⟩
    · cases hr : env.race srv d with
      | ok ips2 s2 =>
        exact ⟨{ Typ := TypStatic, MappingDomain := p, Domain := d, Server := srv,
                 IP := ips2, CurrentServer := s2 },
               by simp only [runHandle, hm, hr], rfl, rfl⟩
      | fail =>
        exact ⟨{ Typ := TypStatic, MappingDomain := p, Domain := d, Server := srv },
               by simp only [runHandle, hm, hr], rfl, rfl⟩
    · intro next2
      simp only [runHandle, hm]
    · intro next2
      simp only [runHandle, hm]

/-- C7, witness: the wildcard pattern matches by suffix, and a non-star
pattern that differs from the domain delegates unchanged. -/
theorem C7_mapping_match_witness :
    mappingMatches "*.x.com" "a.x.com" = some true ∧
    runHandle testEnv (.mappingServerH "b.com" [zeroDnsServer] .fallbackH) "a.x.com" =
      runHandle testEnv .fallbackH "a.x.com" := by
  constructor
  · rw [(C7_mapping_match testEnv "*.x.com" "a.x.com" (by decide) [] [] .nilH).1]
    rfl
  · exact ((C7_mapping_match testEnv "b.com" "a.x.com" (by decide) [zeroDnsServer] []
      .fallbackH).2.1 (by decide)).1

/-! ## C6: precedence of the first-configured mapping rule -/

theorem mappingFold_cons_ok {r : MappingRule} {rest : List MappingRule} {h hh : Handle}
    (hf : mappingFold (r :: rest) h = (hh, none)) :
    ∃ inner, newMappingHandle r.Domain r.IP r.Server inner = .ok hh := by
  rw [mappingFold] at hf
  rcases hfold : mappingFold rest h with ⟨h2, e2⟩
  rw [hfold] at hf
  cases e2 with
  | some e => dsimp only at hf; simp at hf
  | none =>
    dsimp only at hf
    cases hnm : newMappingHandle r.Domain r.IP r.Server h2 with
    | error e => rw [hnm] at hf; simp at hf
    | ok h3 =>
      rw [hnm] at hf
      simp only [Prod.mk.injEq] at hf
      exact ⟨h2, by rw [hnm, hf.1]⟩

theorem parseIPList_length {md : String} : ∀ {l : List String} {out : List (List Nat)},
    parseIPList md l = .ok out → out.length = l.length := by
  intro l
  induction l with
  | nil =>
    intro out h
    rw [parseIPList] at h
    injection h with h1
    simp [← h1]
  | cons v rest ih =>
    intro out h
    rw [parseIPList] at h
    rcases hp : parseIPChars v.data with _ | ip <;> rw [hp] at h
    · simp at h
    · rcases hr : parseIPList md rest with e | t <;> rw [hr] at h
      · simp [Except.map] at h
      · simp only [Except.map] at h
        injection h with h1
        simp [← h1, ih hr]

theorem newMappingHandle_ok_shape {md : String} {servers ips : List String}
    {next h : Handle} (hok : newMappingHandle md servers ips next = .ok h) :
    (∃ addrs, parseServerList servers = .ok addrs ∧ h = .mappingServerH md addrs next) ∨
    (∃ netIPs, parseIPList md ips = .ok netIPs ∧ servers = [] ∧ ips ≠ [] ∧
      h = .mappingStaticH md netIPs next) := by
  rw [newMappingHandle] at hok
  split at hok
  · simp at hok
  · split at hok
    · cases hp : parseServerList servers with
      | error e => rw [hp] at hok; simp [Except.map] at hok
      | ok addrs =>
        rw [hp] at hok
        simp only [Except.map, Except.ok.injEq] at hok
        exact Or.inl ⟨addrs, rfl, hok.symm⟩
    · next hcond1 hcond2 =>
      have hse : servers = [] := by
        rcases servers with _ | ⟨v, t⟩
        · rfl
        · simp at hcond2
      have hie : ips ≠ [] := by
        intro hi
        subst hse hi
        simp at hcond1
      cases hp : parseIPList md ips with
      | error e => rw [hp] at hok; simp [Except.map] at hok
      | ok netIPs =>
        rw [hp] at hok
        simp only [Except.map, Except.ok.injEq] at hok
        exact Or.inr ⟨netIPs, rfl, hse, hie, hok.symm⟩

/-- C6: whenever the chain build succeeds and the FIRST-configured
mapping rule's pattern matches the queried domain, the chain's answer is
a static record carrying that rule's pattern: the first-configured rule
is checked first, and its match never falls through to the rest of the
chain (the flag shows the fallback never ran). -/
theorem C6_first_rule_wins (env : Env) (cfg : DNSConfig) (h : Handle)
    (r : MappingRule) (rest : List MappingRule) (d : String)
    (hbuild : applyConfig none cfg = (h, none))
    (hrules : cfg.Mapping = r :: rest)
    (hmatch : mappingMatches r.Domain d = some true) :
    ∃ rec : DNS, runHandle env h d = (.ret rec, false) ∧
      rec.MappingDomain = r.Domain ∧ rec.Typ = TypStatic := by
  have hb2 : mappingFold (r :: rest)
      ((newCacheHandle (newGeneralHandle cfg.Servers .fallbackH).1).1) = (h, none) := by
    rw [← hrules]
    exact hbuild
  obtain ⟨inner, hnm⟩ := mappingFold_cons_ok hb2
  rcases newMappingHandle_ok_shape hnm with ⟨addrs, hps, rfl⟩ | ⟨netIPs, hpl, hse, hie, rfl⟩
  · cases hr : env.race addrs d with
    | ok ips2 s2 =>
      exact ⟨{ Typ := TypStatic, MappingDomain := r.Domain, Domain := d, Server := addrs,
               IP := ips2, CurrentServer := s2 },
             by simp only [runHandle, hmatch, hr], rfl, rfl⟩
    | fail =>
      exact ⟨{ Typ := TypStatic, MappingDomain := r.Domain, Domain := d, Server := addrs },
             by simp only [runHandle, hmatch, hr], rfl, rfl⟩
  · have hlen : netIPs.length = r.Server.length := parseIPList_length hpl
    rcases hni : netIPs with _ | ⟨ip0, ipt⟩
    · rw [hni] at hlen
      rcases hsv : r.Server with _ | _
      · exact absurd hsv hie
      · rw [hsv] at hlen
        simp at hlen
    · exact ⟨{ Typ := TypStatic, MappingDomain := r.Domain, Domain := d,
               IP := ip0 :: ipt, CurrentIP := ip0, CurrentCountry := env.geo ip0 },
             by simp only [runHandle, hmatch], rfl, rfl⟩

/-- The configuration of claim C6: two rules in order, both matching
`a.x.com`. -/
def c6Config : DNSConfig :=
  { Servers := [], IncludeSystem := false,
    Mapping := [{ Domain := "*.x.com", Server := ["8.8.8.8"], IP := [] },
                { Domain := "a.x.com", Server := ["9.9.9.9"], IP := [] }] }

/-- The chain `ApplyConfig` builds from `c6Config`. -/
def c6Handle : Handle :=
  .mappingStaticH "*.x.com" [v4InV6 ++ [8, 8, 8, 8]]
    (.mappingStaticH "a.x.com" [v4InV6 ++ [9, 9, 9, 9]]
      (.cacheH (.generalH [] .fallbackH)))

/-- C6, witness: with rules `[A, B]` both matching `a.x.com`, the record
carries `A`'s pattern `*.x.com`. -/
theorem C6_first_rule_wins_witness :
    ∃ rec : DNS, runHandle testEnv c6Handle "a.x.com" = (.ret rec, false) ∧
      rec.MappingDomain = "*.x.com" ∧ rec.Typ = TypStatic :=
  C6_first_rule_wins testEnv c6Config c6Handle
    { Domain := "*.x.com", Server := ["8.8.8.8"], IP := [] }
    [{ Domain := "a.x.com", Server := ["9.9.9.9"], IP := [] }] "a.x.com"
    (by decide) rfl (by decide)

/-! ## C8: the ParseDnsServer contract -/

theorem hasSchemeSep_udp (t : List Char) :
    hasSchemeSep ('u' :: 'd' :: 'p' :: ':' :: '/' :: '/' :: t) = true := rfl

/-- C8: the parser table and contract of `ParseDnsServer`: the four table
rows; UDP is assumed when no scheme separator is present (prepending
`udp://` gives the same result); a URL-level parse failure (which covers
syntactically invalid ports) fails; a scheme other than `udp` fails; a
host that is not an IP literal fails; an omitted port defaults to 53; a
present port rejected by `Atoi` fails. -/
theorem C8_parser_contract :
    (ParseDnsServer "8.8.8.8" = .ok ⟨"udp", v4InV6 ++ [8, 8, 8, 8], 53⟩) ∧
    (ParseDnsServer "udp://1.1.1.1:5353" = .ok ⟨"udp", v4InV6 ++ [1, 1, 1, 1], 5353⟩) ∧
    ((ParseDnsServer "tcp://1.1.1.1").toOption = none) ∧
    ((ParseDnsServer "udp://not-an-ip").toOption = none) ∧
    (∀ v : String, hasSchemeSep v.data = false →
      ParseDnsServer v = ParseDnsServer ("udp://" ++ v)) ∧
    (∀ (v e : String), urlParse (withDefaultScheme v) = .error e →
      ParseDnsServer v = .error e) ∧
    (∀ (v : String) (u : GoURL), urlParse (withDefaultScheme v) = .ok u →
      u.scheme ≠ "udp".data → ∃ e, ParseDnsServer v = .error e) ∧
    (∀ (v : String) (u : GoURL), urlParse (withDefaultScheme v) = .ok u →
      u.scheme = "udp".data → parseIPChars (splitHostPort u.host).1 = none →
      ∃ e, ParseDnsServer v = .error e) ∧
    (∀ (v : String) (u : GoURL) (ip : List Nat), urlParse (withDefaultScheme v) = .ok u →
      u.scheme = "udp".data → parseIPChars (splitHostPort u.host).1 = some ip →
      (splitHostPort u.host).2 = [] → ParseDnsServer v = .ok ⟨"udp", ip, 53⟩) ∧
    (∀ (v : String) (u : GoURL) (ip : List Nat), urlParse (withDefaultScheme v) = .ok u →
      u.scheme = "udp".data → parseIPChars (splitHostPort u.host).1 = some ip →
      (splitHostPort u.host).2 ≠ [] → goAtoi (splitHostPort u.host).2 = none →
      ∃ e, ParseDnsServer v = .error e) := by
  refine ⟨by decide, by decide, by decide, by decide, ?_, ?_, ?_, ?_, ?_, ?_⟩
  · intro v hv
    have hd : ("udp://" ++ v).data = 'u' :: 'd' :: 'p' :: ':' :: '/' :: '/' :: v.data := by
      rw [String.data_append]
      rfl
    have h1 : withDefaultScheme ("udp://" ++ v) = withDefaultScheme v := by
      simp only [withDefaultScheme, hv, Bool.false_eq_true, if_false, hd, hasSchemeSep_udp,
        if_true]
    simp only [ParseDnsServer, h1]
  · intro v e h
    simp only [ParseDnsServer, h]
  · intro v u h hne
    simp only [ParseDnsServer, h]
    rw [if_pos hne]
    exact ⟨_, rfl⟩
  · intro v u h hsch hip
    simp only [ParseDnsServer, h]
    rw [if_neg (by simp [hsch]), hip]
    exact ⟨_, rfl⟩
  · intro v u ip h hsch hip hport
    simp only [ParseDnsServer, h]
    rw [if_neg (by simp [hsch]), hip]
    dsimp only
    rw [if_pos (by simp [hport]), hsch]
  · intro v u ip h hsch hip hport hatoi
    simp only [ParseDnsServer, h]
    rw [if_neg (by simp [hsch]), hip]
    dsimp only
    rw [if_neg (by simpa [List.isEmpty_iff] using hport), hatoi]
    exact ⟨_, rfl⟩

/-- C8, witness: a string without `://` parses as if prefixed with
`udp://`. -/
theorem C8_parser_contract_witness :
    ParseDnsServer "9.9.9.9" = ParseDnsServer ("udp://" ++ "9.9.9.9") :=
  C8_parser_contract.2.2.2.2.1 "9.9.9.9" (by decide)

/-! ## C10 groundwork: canonical-string surgery -/

theorem cutAtChar_of_not_mem {c : Char} {l : List Char} (h : c ∉ l) : cutAtChar c l = l := by
  induction l with
  | nil => rfl
  | cons x t ih =>
    have hx : x ≠ c := fun he => h (by simp [he])
    have ht : c ∉ t := fun hm => h (by simp [hm])
    unfold cutAtChar at ih ⊢
    rw [List.takeWhile_cons, if_pos (by simpa using hx), ih ht]

theorem breakAtLastChar_not_mem {c : Char} {l : List Char} (h : c ∉ l) :
    breakAtLastChar c l = none := by
  induction l with
  | nil => rfl
  | cons x t ih =>
    have hx : x ≠ c := fun he => h (by simp [he])
    have ht : c ∉ t := fun hm => h (by simp [hm])
    simp [breakAtLastChar, ih ht, hx]

theorem breakAtLastChar_append {c : Char} {a : List Char} (ha : c ∉ a) :
    ∀ b : List Char, breakAtLastChar c (b ++ c :: a) = some (b, a) := by
  intro b
  induction b with
  | nil => simp [breakAtLastChar, breakAtLastChar_not_mem ha]
  | cons x t ih => simp [breakAtLastChar, ih]

theorem headD_append {l m : List Char} {x0 x : Char} (h : l = x0 :: (l.drop 1)) :
    (l ++ m).headD x = x0 := by
  rw [h]
  rfl

/-- The characters of a printed 16-byte IP: colon, dot, or hex digit. -/
theorem ipString_chars {ip : List Nat} (hlen : ip.length = 16) :
    ∀ c ∈ ipString ip, c = ':' ∨ c = '.' ∨ isHexDigit c = true := by
  intro c hc
  have hne : ip.isEmpty = false := by
    rcases ip with _ | _
    · simp at hlen
    · simp
  unfold ipString at hc
  rw [hne] at hc
  simp only [Bool.false_eq_true, if_false] at hc
  rcases hto4 : to4 ip with _ | q <;> rw [hto4] at hc
  · rw [if_pos hlen] at hc
    rcases v6String_chars _ hc with h | h
    · left; exact h
    · right; right; exact h
  · rcases v4String_chars _ hc with h | h
    · right; left; exact h
    · right; right
      simp only [isHexDigit, h]
      rfl

theorem mem_joinHostPort {hst pt : List Char} {c : Char} (hc : c ∈ joinHostPort hst pt) :
    c = '[' ∨ c = ']' ∨ c = ':' ∨ c ∈ hst ∨ c ∈ pt := by
  unfold joinHostPort at hc
  split at hc
  · simp only [List.mem_cons, List.mem_append] at hc
    rcases hc with rfl | (h | (rfl | (rfl | h)))
    · left; rfl
    · right; right; right; left; exact h
    · right; left; rfl
    · right; right; left; rfl
    · right; right; right; right; exact h
  · simp only [List.mem_append, List.mem_cons] at hc
    rcases hc with h | (rfl | h)
    · right; right; right; left; exact h
    · right; right; left; rfl
    · right; right; right; right; exact h

/-- Character classification of a canonical `host:port` address built
from a 16-byte IP and a decimal port. -/
theorem addrChar_class {ip : List Nat} (hlen : ip.length = 16) (port : Nat) {c : Char}
    (hc : c ∈ joinHostPort (ipString ip) (decChars port)) :
    c = '[' ∨ c = ']' ∨ c = ':' ∨ c = '.' ∨ isHexDigit c = true := by
  rcases mem_joinHostPort hc with rfl | rfl | rfl | hm | hm
  · left; rfl
  · right; left; rfl
  · right; right; left; rfl
  · rcases ipString_chars hlen c hm with h | h | h
    · right; right; left; exact h
    · right; right; right; left; exact h
    · right; right; right; right; exact h
  · right; right; right; right
    have := decChars_all_digit port c hm
    simp only [isHexDigit, this]
    rfl

theorem isHexDigit_not_url_chars {c : Char} (h : isHexDigit c = true) :
    c ≠ '#' ∧ c ≠ '?' ∧ c ≠ '/' ∧ c ≠ '@' := by
  simp only [isHexDigit, isDigit, Bool.or_eq_true, Bool.and_eq_true, decide_eq_true_eq] at h
  refine ⟨?_, ?_, ?_, ?_⟩ <;> rintro rfl <;> revert h <;> decide

theorem isHexDigit_not_ctl {c : Char} (h : isHexDigit c = true) :
    (c.toNat < 32 || c.toNat = 127) = false := by
  simp only [isHexDigit, isDigit, Bool.or_eq_true, Bool.and_eq_true, decide_eq_true_eq] at h
  have hge : 48 ≤ c.toNat ∧ c.toNat ≤ 102 := by
    rcases h with (⟨h1, h2⟩ | ⟨h1, h2⟩) | ⟨h1, h2⟩ <;>
      rw [Char.le_def] at h1 h2 <;>
      exact ⟨le_trans (by decide) h1, le_trans h2 (by decide)⟩
  simp only [Bool.or_eq_false_iff, decide_eq_false_iff_not, Nat.not_lt]
  omega

/-- No character of a canonical address is a URL metacharacter or a
control character. -/
theorem addrChar_clean {ip : List Nat} (hlen : ip.length = 16) (port : Nat) {c : Char}
    (hc : c ∈ joinHostPort (ipString ip) (decChars port)) :
    c ≠ '#' ∧ c ≠ '?' ∧ c ≠ '/' ∧ c ≠ '@' ∧ (c.toNat < 32 || c.toNat = 127) = false := by
  rcases addrChar_class hlen port hc with rfl | rfl | rfl | rfl | h
  · exact ⟨by decide, by decide, by decide, by decide, by decide⟩
  · exact ⟨by decide, by decide, by decide, by decide, by decide⟩
  · exact ⟨by decide, by decide, by decide, by decide, by decide⟩
  · exact ⟨by decide, by decide, by decide, by decide, by decide⟩
  · obtain ⟨h1, h2, h3, h4⟩ := isHexDigit_not_url_chars h
    exact ⟨h1, h2, h3, h4, isHexDigit_not_ctl h⟩

/-! ## Soundness of the IP parser: a parsed address is sixteen bytes, each
below 256 -/

theorem hexVal_lt {c : Char} (h : isHexDigit c = true) : hexVal c < 16 := by
  simp only [isHexDigit, isDigit, Bool.or_eq_true, Bool.and_eq_true, decide_eq_true_eq] at h
  unfold hexVal
  rcases h with (⟨h1, h2⟩ | ⟨h1, h2⟩) | ⟨h1, h2⟩
  · have hd : isDigit c = true := by
      simp only [isDigit, Bool.and_eq_true, decide_eq_true_eq]
      exact ⟨h1, h2⟩
    rw [if_pos hd]
    have : c.toNat ≤ 57 := le_trans (Char.le_def.mp h2) (by decide)
    omega
  · have hhi : c.toNat ≤ 102 := le_trans (Char.le_def.mp h2) (by decide)
    have hd : isDigit c = false := by
      cases hdi : isDigit c
      · rfl
      · exfalso
        simp only [isDigit, Bool.and_eq_true, decide_eq_true_eq] at hdi
        have hx : c.toNat ≤ 57 := le_trans (Char.le_def.mp hdi.2) (by decide)
        have hy : 97 ≤ c.toNat := le_trans (by decide) (Char.le_def.mp h1)
        omega
    rw [if_neg (by rw [hd]; exact Bool.false_ne_true), if_pos (by simp [h1, h2])]
    omega
  · have hlo : 65 ≤ c.toNat := le_trans (by decide) (Char.le_def.mp h1)
    have hhi : c.toNat ≤ 70 := le_trans (Char.le_def.mp h2) (by decide)
    have hd : isDigit c = false := by
      cases hdi : isDigit c
      · rfl
      · exfalso
        simp only [isDigit, Bool.and_eq_true, decide_eq_true_eq] at hdi
        have hx : c.toNat ≤ 57 := le_trans (Char.le_def.mp hdi.2) (by decide)
        omega
    rw [if_neg (by rw [hd]; exact Bool.false_ne_true)]
    rw [if_neg ?_]
    · omega
    · intro hcc
      simp only [Bool.and_eq_true, decide_eq_true_eq] at hcc
      have hy : 97 ≤ c.toNat := le_trans (by decide) (Char.le_def.mp hcc.1)
      omega

theorem hexValue_foldl_lt : ∀ (l : List Char) (acc : Nat),
    (∀ c ∈ l, isHexDigit c = true) →
    l.foldl (fun a c => a * 16 + hexVal c) acc < (acc + 1) * 16 ^ l.length
  | [], acc, _ => by simp
  | c :: t, acc, h => by
    simp only [List.foldl_cons, List.length_cons]
    have ih := hexValue_foldl_lt t (acc * 16 + hexVal c)
      (fun x hx => h x (List.mem_cons_of_mem _ hx))
    have hc : hexVal c < 16 := hexVal_lt (h c (List.mem_cons_self c t))
    calc List.foldl (fun a c => a * 16 + hexVal c) (acc * 16 + hexVal c) t
        < (acc * 16 + hexVal c + 1) * 16 ^ t.length := ih
      _ ≤ ((acc + 1) * 16) * 16 ^ t.length := Nat.mul_le_mul (by omega) le_rfl
      _ = (acc + 1) * 16 ^ (t.length + 1) := by ring

theorem hexValue_lt {l : List Char} (hall : ∀ c ∈ l, isHexDigit c = true)
    (hlen : l.length ≤ 4) : hexValue l < 65536 := by
  have h2 : hexValue l < (0 + 1) * 16 ^ l.length := hexValue_foldl_lt l 0 hall
  have h3 : (16 : Nat) ^ l.length ≤ 16 ^ 4 := Nat.pow_le_pow_right (by omega) hlen
  have h4 : (16 : Nat) ^ 4 = 65536 := by norm_num
  omega

theorem parseHexField_sound {f : List Char} {g : Nat} (h : parseHexField f = some g) :
    g < 65536 := by
  unfold parseHexField at h
  split at h
  case isTrue => exact absurd h (by simp)
  case isFalse hcond =>
    injection h with h1
    subst h1
    push_neg at hcond
    obtain ⟨-, hlen, hall⟩ := hcond
    rw [List.all_eq_true] at hall
    exact hexValue_lt hall hlen

theorem parseV4Field_sound {f : List Char} {b : Nat} (h : parseV4Field f = some b) :
    b < 256 := by
  unfold parseV4Field at h
  rcases f with _ | ⟨c, rest⟩
  · exact absurd h (by simp)
  · dsimp only at h
    by_cases hall : ¬ (c :: rest).all isDigit = true
    · rw [if_pos hall] at h
      exact absurd h (by simp)
    · rw [if_neg hall] at h
      by_cases hz : c = '0' ∧ rest ≠ []
      · rw [if_pos hz] at h
        exact absurd h (by simp)
      · simp only [if_neg hz] at h
        split at h
        next hle =>
          injection h with h3
          omega
        next => exact absurd h (by simp)

theorem parseV4Fields_sound : ∀ {fs : List (List Char)} {q : List Nat},
    parseV4Fields fs = some q → ∀ b ∈ q, b < 256
  | [], q, h => by
    injection h with h1
    subst h1
    intro b hb
    simp at hb
  | f :: rest, q, h => by
    rcases hf : parseV4Field f with _ | b0
    · rw [parseV4Fields, hf] at h
      exact absurd h (by simp)
    · rcases ht : parseV4Fields rest with _ | t0
      · rw [parseV4Fields, hf, ht] at h
        exact absurd h (by simp)
      · rw [parseV4Fields, hf, ht] at h
        have h2 : some (b0 :: t0) = some q := h
        injection h2 with h3
        subst h3
        intro b hb
        rcases List.mem_cons.mp hb with rfl | hm
        · exact parseV4Field_sound hf
        · exact parseV4Fields_sound ht b hm

theorem parseV4Quad_sound {s : List Char} {q : List Nat} (h : parseV4Quad s = some q) :
    q.length = 4 ∧ ∀ b ∈ q, b < 256 := by
  unfold parseV4Quad at h
  split at h
  next a b c d heq =>
    injection h with h1
    subst h1
    exact ⟨rfl, parseV4Fields_sound heq⟩
  next => exact absurd h (by simp)

theorem parseIPv4Chars_sound {s : List Char} {ip : List Nat}
    (h : parseIPv4Chars s = some ip) : ip.length = 16 ∧ ∀ b ∈ ip, b < 256 := by
  unfold parseIPv4Chars at h
  rcases hq : parseV4Quad s with _ | q
  · rw [hq] at h
    exact absurd h (by simp)
  · rw [hq] at h
    simp only [Option.map_some', Option.some.injEq] at h
    subst h
    obtain ⟨hl, hb⟩ := parseV4Quad_sound hq
    constructor
    · simp [v4InV6, hl]
    · intro b hb2
      rcases List.mem_append.mp hb2 with hm | hm
      · have h0 : b = 0 ∨ b = 255 := by simpa [v4InV6] using hm
        rcases h0 with rfl | rfl <;> decide
      · exact hb b hm

theorem parseFieldSeq_sound {a : Bool} : ∀ {fs : List (List Char)} {bs : List Nat},
    parseFieldSeq a fs = some bs → ∀ b ∈ bs, b < 256
  | [], bs, h => by
    injection h with h1
    subst h1
    intro b hb
    simp at hb
  | [f], bs, h => by
    rw [parseFieldSeq] at h
    split at h
    · split at h
      · exact fun b hb => (parseV4Quad_sound h).2 b hb
      · exact absurd h (by simp)
    · rcases hg : parseHexField f with _ | g
      · rw [hg] at h
        exact absurd h (by simp)
      · rw [hg] at h
        simp only [Option.map_some', Option.some.injEq] at h
        subst h
        have hglt := parseHexField_sound hg
        intro b hb
        rcases List.mem_cons.mp hb with rfl | hm
        · omega
        · rcases List.mem_cons.mp hm with rfl | hm2
          · omega
          · simp at hm2
  | f :: g :: rest, bs, h => by
    rw [parseFieldSeq] at h
    rcases hf : parseHexField f with _ | n
    · rw [hf] at h
      exact absurd h (by simp)
    · rcases hr : parseFieldSeq a (g :: rest) with _ | t
      · rw [hf, hr] at h
        exact absurd h (by simp)
      · rw [hf, hr] at h
        have h2 : some (n / 256 :: n % 256 :: t) = some bs := h
        injection h2 with h3
        subst h3
        have hn := parseHexField_sound hf
        intro b hb
        rcases List.mem_cons.mp hb with rfl | hm
        · omega
        · rcases List.mem_cons.mp hm with rfl | hm2
          · omega
          · exact parseFieldSeq_sound hr b hm2

theorem replicate_zero_bound {n : Nat} : ∀ b ∈ List.replicate n 0, b < 256 := by
  intro b hb
  rw [List.eq_of_mem_replicate hb]
  decide

theorem parseIPv6Chars_sound {s : List Char} {ip : List Nat}
    (h : parseIPv6Chars s = some ip) : ip.length = 16 ∧ ∀ b ∈ ip, b < 256 := by
  unfold parseIPv6Chars at h
  dsimp only at h
  rcases hsp : splitAtFirstEmpty (splitOnChar ':' s) with _ | ⟨before, aft⟩ <;>
    rw [hsp] at h <;> dsimp only at h
  · rcases hfs : parseFieldSeq true (splitOnChar ':' s) with _ | bs <;> rw [hfs] at h <;> dsimp only at h
    · exact absurd h (by simp)
    · by_cases hlen : bs.length = 16
      · rw [if_pos hlen] at h
        injection h with h1
        subst h1
        exact ⟨hlen, parseFieldSeq_sound hfs⟩
      · rw [if_neg hlen] at h
        exact absurd h (by simp)
  · by_cases hbe : before.isEmpty = true
    · rw [if_pos hbe] at h
      rcases aft with _ | ⟨f, rest⟩
      · exact absurd h (by simp)
      · dsimp only at h
        by_cases hfe : f.isEmpty = true
        · rw [if_pos hfe] at h
          by_cases hr1 : rest = [[]]
          · rw [if_pos hr1] at h
            injection h with h1
            subst h1
            exact ⟨by simp, replicate_zero_bound⟩
          · rw [if_neg hr1] at h
            by_cases hr2 : (rest.isEmpty || !allNonempty rest) = true
            · rw [if_pos hr2] at h
              exact absurd h (by simp)
            · rw [if_neg hr2] at h
              rcases hbs : parseFieldSeq true rest with _ | bs <;> rw [hbs] at h <;> dsimp only at h
              · exact absurd h (by simp)
              · by_cases hle : bs.length ≤ 14
                · rw [if_pos hle] at h
                  injection h with h1
                  subst h1
                  refine ⟨by simp only [List.length_append, List.length_replicate]; omega, ?_⟩
                  intro b hb
                  rcases List.mem_append.mp hb with hm | hm
                  · exact replicate_zero_bound b hm
                  · exact parseFieldSeq_sound hbs b hm
                · rw [if_neg hle] at h
                  exact absurd h (by simp)
        · rw [if_neg hfe] at h
          exact absurd h (by simp)
    · rw [if_neg hbe] at h
      by_cases hae : aft.isEmpty = true
      · rw [if_pos hae] at h
        exact absurd h (by simp)
      · rw [if_neg hae] at h
        by_cases ha1 : aft = [[]]
        · rw [if_pos ha1] at h
          rcases hbs : parseFieldSeq false before with _ | bs <;> rw [hbs] at h <;> dsimp only at h
          · exact absurd h (by simp)
          · by_cases hle : bs.length ≤ 14
            · rw [if_pos hle] at h
              injection h with h1
              subst h1
              refine ⟨by simp only [List.length_append, List.length_replicate]; omega, ?_⟩
              intro b hb
              rcases List.mem_append.mp hb with hm | hm
              · exact parseFieldSeq_sound hbs b hm
              · exact replicate_zero_bound b hm
            · rw [if_neg hle] at h
              exact absurd h (by simp)
        · rw [if_neg ha1] at h
          by_cases ha2 : (!allNonempty aft) = true
          · rw [if_pos ha2] at h
            exact absurd h (by simp)
          · rw [if_neg ha2] at h
            rcases hb1 : parseFieldSeq false before with _ | b1 <;> rw [hb1] at h
            · rcases hb2 : parseFieldSeq true aft with _ | b2 <;> rw [hb2] at h <;>
                exact absurd h (by simp)
            · rcases hb2 : parseFieldSeq true aft with _ | b2 <;> rw [hb2] at h
              · exact absurd h (by simp)
              · dsimp only at h
                by_cases hle : b1.length + b2.length ≤ 14
                · rw [if_pos hle] at h
                  injection h with h1
                  subst h1
                  refine ⟨by simp only [List.length_append, List.length_replicate]; omega, ?_⟩
                  intro b hb
                  rcases List.mem_append.mp hb with hm | hm
                  · rcases List.mem_append.mp hm with hm2 | hm2
                    · exact parseFieldSeq_sound hb1 b hm2
                    · exact replicate_zero_bound b hm2
                  · exact parseFieldSeq_sound hb2 b hm
                · rw [if_neg hle] at h
                  exact absurd h (by simp)

theorem parseIPChars_sound {s : List Char} {ip : List Nat}
    (h : parseIPChars s = some ip) : ip.length = 16 ∧ ∀ b ∈ ip, b < 256 := by
  unfold parseIPChars at h
  rcases hf : s.find? (fun c => c = '.' || c = ':') with _ | c <;> rw [hf] at h
  · exact absurd h (by simp)
  · dsimp only at h
    by_cases hc : c = '.'
    · rw [if_pos hc] at h
      exact parseIPv4Chars_sound h
    · rw [if_neg hc] at h
      exact parseIPv6Chars_sound h

theorem goAtoi_le {l : List Char} {p : Nat} (h : goAtoi l = some p) :
    p ≤ 9223372036854775807 := by
  unfold goAtoi at h
  split at h
  · exact absurd h (by simp)
  · split at h
    · exact absurd h (by simp)
    · split at h
      next hle =>
        injection h with h1
        omega
      next => exact absurd h (by simp)

theorem goAtoi_decChars {p : Nat} (hp : p ≤ 9223372036854775807) :
    goAtoi (decChars p) = some p := by
  have h1 : (decChars p).isEmpty = false := by
    rcases hd : decChars p with _ | _
    · exact absurd hd (decChars_ne_nil p)
    · rfl
  have h2 : (decChars p).all isDigit = true :=
    List.all_eq_true.mpr fun x hx => decChars_all_digit p x hx
  simp [goAtoi, h1, h2, decValue_decChars, hp]

/-- Invariants of a successful parse: the network is `udp`, the address is
sixteen bytes each below 256, and the port fits a 64-bit int. -/
theorem ParseDnsServer_ok_inv {value : String} {s : DnsServer}
    (h : ParseDnsServer value = .ok s) :
    s.Network = "udp" ∧ s.IP.length = 16 ∧ (∀ b ∈ s.IP, b < 256) ∧
      s.Port ≤ 9223372036854775807 := by
  simp only [ParseDnsServer] at h
  rcases hu : urlParse (withDefaultScheme value) with e | u <;> rw [hu] at h
  · exact absurd h (by simp)
  · dsimp only at h
    by_cases hs : u.scheme ≠ "udp".data
    · rw [if_pos hs] at h
      exact absurd h (by simp)
    · rw [if_neg hs] at h
      push_neg at hs
      rcases hip : parseIPChars (splitHostPort u.host).1 with _ | ip <;> rw [hip] at h
      · exact absurd h (by simp)
      · dsimp only at h
        obtain ⟨hlen, hb⟩ := parseIPChars_sound hip
        by_cases hpe : (splitHostPort u.host).2.isEmpty = true
        · rw [if_pos hpe] at h
          injection h with h1
          subst h1
          refine ⟨by rw [hs], hlen, hb, ?_⟩
          show (53 : Nat) ≤ 9223372036854775807
          decide
        · rw [if_neg hpe] at h
          rcases hpa : goAtoi (splitHostPort u.host).2 with _ | p <;> rw [hpa] at h
          · exact absurd h (by simp)
          · dsimp only at h
            injection h with h1
            subst h1
            exact ⟨by rw [hs], hlen, hb, goAtoi_le hpa⟩

/-! ## Parsing the canonical `udp://<addr>` string back -/

theorem headD_ne_of_not_mem {l : List Char} {x d : Char} (hx : x ∉ l) (hd : d ≠ x) :
    l.headD d ≠ x := by
  rcases l with _ | ⟨c, t⟩
  · exact hd
  · simp only [List.headD_cons]
    intro he
    exact hx (he ▸ List.mem_cons_self c t)

theorem getScheme_udp (rest : List Char) :
    getScheme ('u' :: 'd' :: 'p' :: ':' :: rest) = .ok ("udp".data, rest) := rfl

/-- `url.Parse` of a canonical `udp://<addr>` string whose address part
carries no URL metacharacter: the scheme is `udp` and the host is the
address, provided `parseHost` accepts it. -/
theorem urlParse_udp (addr : List Char)
    (hclean : ∀ c ∈ addr, c ≠ '#' ∧ c ≠ '?' ∧ c ≠ '/' ∧ c ≠ '@' ∧
      (c.toNat < 32 || c.toNat = 127) = false)
    (hhost : parseHostModel addr = .ok addr) :
    urlParse ('u' :: 'd' :: 'p' :: ':' :: '/' :: '/' :: addr) = .ok ⟨"udp".data, addr⟩ := by
  have hctl : containsCTL ('u' :: 'd' :: 'p' :: ':' :: '/' :: '/' :: addr) = false := by
    rw [containsCTL, List.any_eq_false]
    intro x hx
    simp only [List.mem_cons] at hx
    rcases hx with rfl | rfl | rfl | rfl | rfl | rfl | hm
    · decide
    · decide
    · decide
    · decide
    · decide
    · decide
    · simp only [(hclean x hm).2.2.2.2]
      exact Bool.false_ne_true
  have hhash : '#' ∉ ('u' :: 'd' :: 'p' :: ':' :: '/' :: '/' :: addr) := by
    intro hmem
    simp only [List.mem_cons] at hmem
    rcases hmem with h | h | h | h | h | h | hm
    · exact absurd h (by decide)
    · exact absurd h (by decide)
    · exact absurd h (by decide)
    · exact absurd h (by decide)
    · exact absurd h (by decide)
    · exact absurd h (by decide)
    · exact (hclean '#' hm).1 rfl
  have hq : '?' ∉ ('/' :: '/' :: addr) := by
    intro hmem
    simp only [List.mem_cons] at hmem
    rcases hmem with h | h | hm
    · exact absurd h (by decide)
    · exact absurd h (by decide)
    · exact (hclean '?' hm).2.1 rfl
  have hsl : '/' ∉ addr := fun hm => (hclean '/' hm).2.2.1 rfl
  have hat : '@' ∉ addr := fun hm => (hclean '@' hm).2.2.2.1 rfl
  unfold urlParse
  rw [if_neg (by rw [hctl]; exact Bool.false_ne_true)]
  rw [cutAtChar_of_not_mem hhash, getScheme_udp]
  dsimp only
  rw [cutAtChar_of_not_mem hq]
  rw [if_neg (fun hne => hne rfl)]
  rw [if_pos (by rfl)]
  rw [show ('/' :: '/' :: addr).drop 2 = addr from rfl]
  have htw : addr.takeWhile (· ≠ '/') = addr := by
    have h := cutAtChar_of_not_mem hsl
    rwa [cutAtChar] at h
  rw [htw]
  have hal : afterLastAt addr = addr := by
    unfold afterLastAt
    rw [breakAtLastChar_not_mem hat]
  rw [hal, hhost]

theorem parseHost_nocolon {hst pt : List Char} (hc1 : ':' ∉ pt)
    (hbr : (hst ++ ':' :: pt).headD ' ' ≠ '[') (hpt : pt.all isDigit = true) :
    parseHostModel (hst ++ ':' :: pt) = .ok (hst ++ ':' :: pt) := by
  unfold parseHostModel
  rw [if_neg hbr, breakAtLastChar_append hc1]
  dsimp only
  rw [if_pos (by simp [validOptionalPort, hpt])]

theorem splitHostPort_nocolon {hst pt : List Char} (hc1 : ':' ∉ pt)
    (hbr : hst.headD ' ' ≠ '[') (hpt : pt.all isDigit = true) :
    splitHostPort (hst ++ ':' :: pt) = (hst, pt) := by
  have hvp : validOptionalPort (':' :: pt) = true := by simp [validOptionalPort, hpt]
  unfold splitHostPort
  rw [breakAtLastChar_append hc1]
  dsimp only
  rw [if_pos hvp]
  have hnb : ¬((hst, pt).1.headD ' ' = '[' ∧ (hst, pt).1.getLast? = some ']') := by
    rintro ⟨h1, h2⟩
    exact hbr h1
  rw [if_neg hnb]

theorem parseHost_bracket {hst pt : List Char} (hb1 : ']' ∉ pt)
    (hpt : pt.all isDigit = true) :
    parseHostModel (('[' :: hst ++ [']']) ++ ':' :: pt) =
      .ok (('[' :: hst ++ [']']) ++ ':' :: pt) := by
  have hh : ((('[' :: hst ++ [']']) ++ ':' :: pt)).headD ' ' = '[' := rfl
  unfold parseHostModel
  rw [if_pos hh]
  rw [show ('[' :: hst ++ [']']) ++ ':' :: pt = ('[' :: hst) ++ ']' :: ':' :: pt by simp]
  rw [breakAtLastChar_append (by simp [hb1])]
  dsimp only
  rw [if_pos (by simp [validOptionalPort, hpt])]

theorem splitHostPort_bracket {hst pt : List Char} (hc1 : ':' ∉ pt)
    (hpt : pt.all isDigit = true) :
    splitHostPort (('[' :: hst ++ [']']) ++ ':' :: pt) = (hst, pt) := by
  have hvp : validOptionalPort (':' :: pt) = true := by simp [validOptionalPort, hpt]
  have hlast : ('[' :: hst ++ [']']).getLast? = some ']' := by
    rw [List.getLast?_concat]
  unfold splitHostPort
  rw [breakAtLastChar_append hc1]
  dsimp only
  rw [if_pos hvp]
  have hcc : (('[' :: hst ++ [']'], pt) : List Char × List Char).1.headD ' ' = '[' ∧
      (('[' :: hst ++ [']'], pt) : List Char × List Char).1.getLast? = some ']' :=
    ⟨rfl, hlast⟩
  rw [if_pos hcc]
  show ((hst ++ [']']).dropLast, pt) = (hst, pt)
  rw [List.dropLast_concat]

theorem char_not_mem_ipString {ip : List Nat} (hlen : ip.length = 16) {c : Char}
    (h1 : c ≠ ':') (h2 : c ≠ '.') (h3 : isHexDigit c = false) : c ∉ ipString ip := by
  intro hm
  rcases ipString_chars hlen c hm with h | h | h
  · exact h1 h
  · exact h2 h
  · rw [h3] at h
    exact Bool.false_ne_true h

/-- Re-parsing a descriptor's canonical string, given that its address
survives `parseHost` and splits back into its IP string and port digits. -/
theorem ParseDnsServer_canonical {s : DnsServer} (hnet : s.Network = "udp")
    (hlen : s.IP.length = 16) (hb : ∀ b ∈ s.IP, b < 256)
    (hport : s.Port ≤ 9223372036854775807)
    (hhost : parseHostModel s.Addr = .ok s.Addr)
    (hsplit : splitHostPort s.Addr = (ipString s.IP, decChars s.Port)) :
    ParseDnsServer s.str = .ok s := by
  have hdata : s.str.data = 'u' :: 'd' :: 'p' :: ':' :: '/' :: '/' :: s.Addr := by
    rw [DnsServer.str, hnet]
    rfl
  have hclean : ∀ c ∈ s.Addr, c ≠ '#' ∧ c ≠ '?' ∧ c ≠ '/' ∧ c ≠ '@' ∧
      (c.toNat < 32 || c.toNat = 127) = false := fun c hc =>
    addrChar_clean hlen s.Port hc
  have hws : withDefaultScheme s.str = 'u' :: 'd' :: 'p' :: ':' :: '/' :: '/' :: s.Addr := by
    unfold withDefaultScheme
    rw [hdata, hasSchemeSep_udp, if_pos rfl]
  have hurl := urlParse_udp s.Addr hclean hhost
  have hpe : (decChars s.Port).isEmpty = false := by
    rcases hd : decChars s.Port with _ | _
    · exact absurd hd (decChars_ne_nil s.Port)
    · rfl
  unfold ParseDnsServer
  dsimp only
  rw [hws, hurl]
  dsimp only
  rw [if_neg (fun hne => hne rfl)]
  rw [hsplit]
  dsimp only
  rw [parseIPChars_ipString hlen hb]
  dsimp only
  rw [if_neg (by rw [hpe]; exact Bool.false_ne_true)]
  rw [goAtoi_decChars hport]
  dsimp only
  have hs : (⟨⟨"udp".data⟩, s.IP, s.Port⟩ : DnsServer) = s := by
    rcases s with ⟨n, i, p⟩
    dsimp only at hnet
    rw [hnet]
  rw [hs]

/-- C10: round trip of `ParseDnsServer` with `DnsServer.String`: re-parsing
the canonical `<network>://<ip>:<port>` form of any successfully parsed
descriptor succeeds and returns the same descriptor. -/
theorem C10_roundtrip (value : String) (s : DnsServer)
    (h : ParseDnsServer value = .ok s) : ParseDnsServer s.str = .ok s := by
  obtain ⟨hnet, hlen, hb, hport⟩ := ParseDnsServer_ok_inv h
  have hdig : (decChars s.Port).all isDigit = true :=
    List.all_eq_true.mpr fun x hx => decChars_all_digit _ x hx
  have hcp : ':' ∉ decChars s.Port := fun hm =>
    (isDigit_not_special (decChars_all_digit _ _ hm)).1 rfl
  by_cases hcol : (ipString s.IP).contains ':' = true
  · -- the printed IP carries a colon: the address is bracketed
    have haddr : s.Addr = ('[' :: ipString s.IP ++ [']']) ++ ':' :: decChars s.Port := by
      simp only [DnsServer.Addr, joinHostPort, hcol, if_true]
      simp
    have hbp : ']' ∉ decChars s.Port := fun hm =>
      absurd (decChars_all_digit _ _ hm) (by decide)
    have hhost : parseHostModel s.Addr = .ok s.Addr := by
      rw [haddr]
      exact parseHost_bracket hbp hdig
    have hsplit : splitHostPort s.Addr = (ipString s.IP, decChars s.Port) := by
      rw [haddr]
      exact splitHostPort_bracket hcp hdig
    exact ParseDnsServer_canonical hnet hlen hb hport hhost hsplit
  · -- no colon in the printed IP: the address is bare `ip:port`
    have hcolm : ':' ∉ ipString s.IP := fun hm => hcol (by simpa using hm)
    have haddr : s.Addr = ipString s.IP ++ ':' :: decChars s.Port := by
      simp only [DnsServer.Addr, joinHostPort]
      rw [if_neg hcol]
    have hbrL : '[' ∉ ipString s.IP :=
      char_not_mem_ipString hlen (by decide) (by decide) (by decide)
    have hbrA : '[' ∉ ipString s.IP ++ ':' :: decChars s.Port := by
      intro hm
      rcases List.mem_append.mp hm with h1 | h1
      · exact hbrL h1
      · rcases List.mem_cons.mp h1 with h2 | h2
        · exact absurd h2 (by decide)
        · exact absurd (decChars_all_digit _ _ h2) (by decide)
    have hhost : parseHostModel s.Addr = .ok s.Addr := by
      rw [haddr]
      exact parseHost_nocolon hcp (headD_ne_of_not_mem hbrA (by decide)) hdig
    have hsplit : splitHostPort s.Addr = (ipString s.IP, decChars s.Port) := by
      rw [haddr]
      exact splitHostPort_nocolon hcp (headD_ne_of_not_mem hbrL (by decide)) hdig
    exact ParseDnsServer_canonical hnet hlen hb hport hhost hsplit

theorem C10_roundtrip_witness :
    ParseDnsServer "8.8.8.8" = .ok ⟨"udp", v4InV6 ++ [8, 8, 8, 8], 53⟩ ∧
    ParseDnsServer (DnsServer.str ⟨"udp", v4InV6 ++ [8, 8, 8, 8], 53⟩) =
      .ok ⟨"udp", v4InV6 ++ [8, 8, 8, 8], 53⟩ :=
  ⟨by decide, C10_roundtrip "8.8.8.8" ⟨"udp", v4InV6 ++ [8, 8, 8, 8], 53⟩ (by decide)⟩

end ShuttleDNS
